import Mathlib

/-! # D3D12Base: pooled slot allocator and command-list barrier tracking

Shallow embedding of

* `Dar::PooledVector<T>` (`src/dar/utils/pooled_vector.h`): `push`, `release`, `at`;
* `CommandList::transition` (`src/D3D12BaseLib/src/d3d12_command_list.cpp`).

Conventions.

* `SizeType` is `size_t` (64 bit). Indices are natural numbers; the only place where the
  source does arithmetic on them is `arr.size() - 1` in `push`, which is reduced
  modulo `2 ^ 64`. `INVALID_POOLED_INDEX` is `SizeType(-1) = 2 ^ 64 - 1`.
* `Vector<Optional<T>>` is `List (Option T)`; `Queue<PooledIndex>` is a list whose head is
  the front of the queue (`push` appends at the back, `pop` removes the head).
* The spin lock serialises the three operations; each operation is one atomic step of the
  sequential model.
-/

namespace Dar

/-- The value of `SizeType(-1)`, the sentinel `INVALID_POOLED_INDEX`. -/
def INVALID_POOLED_INDEX : Nat := 2 ^ 64 - 1

/-- The data members of `PooledVector<T>`: the slot vector `arr` and the queue
`freeIndices` (front of the queue first). The member `nullOpt` is a default constructed
`Optional<T>` that is never assigned, i.e. `none`. -/
structure PooledVector (T : Type) where
  arr : List (Option T)
  freeIndices : List Nat
deriving DecidableEq, Repr

namespace PooledVector

variable {T : Type}

/-- The default constructed pool. -/
def empty : PooledVector T := ⟨[], []⟩

/-- Embedding of `PooledVector::push`: the pool after the call and the returned index.
`arr[idx] = v` is `List.set` (the queue only ever holds indices of existing slots, see
`WF`, so the assignment is in range). -/
def push (p : PooledVector T) (v : T) : PooledVector T × Nat :=
  match p.freeIndices with
  | [] =>
    let arr := p.arr ++ [some v]
    ({ p with arr := arr }, (arr.length + 2 ^ 64 - 1) % 2 ^ 64)
  | idx :: rest =>
    ({ arr := p.arr.set idx (some v), freeIndices := rest }, idx)

/-- What `release` leaves behind: the pool, the caller's index variable (passed by
reference) and the returned flag. -/
structure ReleaseResult (T : Type) where
  pool : PooledVector T
  index : Nat
  ok : Bool
deriving DecidableEq, Repr

/-- Embedding of `PooledVector::release`. -/
def release (p : PooledVector T) (index : Nat) : ReleaseResult T :=
  let idx := index
  let index := INVALID_POOLED_INDEX
  if idx = INVALID_POOLED_INDEX then
    ⟨p, index, false⟩
  else if idx ≥ p.arr.length then
    ⟨p, index, false⟩
  else
    match p.arr.getD idx none with
    | none => ⟨p, index, false⟩
    | some _ =>
      ⟨{ arr := p.arr.set idx none, freeIndices := p.freeIndices ++ [idx] }, index, true⟩

/-- Embedding of `PooledVector::at` (a `const` member: it has no pool to return). The
name `at` is a Lean keyword, hence `at_`. -/
def at_ (p : PooledVector T) (idx : Nat) : Option T :=
  if idx = INVALID_POOLED_INDEX ∨ idx ≥ p.arr.length then
    none
  else
    p.arr.getD idx none

/-- One call made by a client of the pool. -/
inductive Op (T : Type) where
  | push (v : T)
  | release (index : Nat)
deriving DecidableEq, Repr

/-- A pool together with the bookkeeping of its clients. `live` lists, in the order of
the calls, every index returned by `push` that no successful `release` has taken back
since, paired with the value that was pushed. `freed` lists, earliest release first, every
index taken back by a successful `release` that `push` has not returned again since. -/
structure Trace (T : Type) where
  pool : PooledVector T
  live : List (Nat × T)
  freed : List Nat

/-- Run one client call and update the bookkeeping. -/
def Trace.step (t : Trace T) : Op T → Trace T
  | Op.push v =>
    let r := t.pool.push v
    ⟨r.1, t.live ++ [(r.2, v)], t.freed.erase r.2⟩
  | Op.release index =>
    let r := t.pool.release index
    ⟨r.pool, if r.ok then t.live.filter (fun e => decide (e.1 ≠ index)) else t.live,
      if r.ok then t.freed ++ [index] else t.freed⟩

/-- Run a sequence of calls on the default constructed pool. -/
def run (ops : List (Op T)) : Trace T :=
  ops.foldl Trace.step ⟨empty, [], []⟩

/-- Structural invariant of a pool: the free queue has no repetition and holds exactly the
indices of the slots without a value. -/
def WF (p : PooledVector T) : Prop :=
  p.freeIndices.Nodup ∧ ∀ i, i ∈ p.freeIndices ↔ p.arr[i]? = some none

/-- Invariant of a trace after at most `n` calls. -/
def Trace.Inv (t : Trace T) (n : Nat) : Prop :=
  t.pool.arr.length ≤ n ∧ WF t.pool ∧ t.freed = t.pool.freeIndices ∧
  (t.live.map Prod.fst).Nodup ∧ ∀ e ∈ t.live, t.pool.arr[e.1]? = some (some e.2)

/-- Every slot that holds a value is accounted for in `live`, and the slots are the live
indices and the free ones together. -/
def Trace.Full (t : Trace T) : Prop :=
  (∀ i v, t.pool.arr[i]? = some (some v) → (i, v) ∈ t.live) ∧
  t.pool.arr.length = t.live.length + t.pool.freeIndices.length

end PooledVector

end Dar

/-! ## Command list -/

namespace D3D12

/-- The local constant `UNKNOWN_STATE` of `CommandList::transition`. -/
def UNKNOWN_STATE : Nat := 0xffffffff

/-- The constant `D3D12_RESOURCE_BARRIER_ALL_SUBRESOURCES` of the Direct3D 12 headers. -/
def D3D12_RESOURCE_BARRIER_ALL_SUBRESOURCES : Nat := 0xffffffff

/-- The vector of resource states, one per subresource (`SubresStates`). -/
abbrev SubresStates := List Nat

/-- The fields of `PendingResourceBarrier` that `transition` fills in. Resources are
identified by the value of the `ID3D12Resource*`. -/
structure PendingResourceBarrier where
  res : Nat
  stateAfter : Nat
  subresourceIndex : Nat
deriving DecidableEq, Repr

/-- The arguments of `CD3DX12_RESOURCE_BARRIER::Transition`, i.e. one transition barrier
recorded into the command list by `cmdList->ResourceBarrier`. -/
structure ResourceBarrier where
  pResource : Nat
  stateBefore : Nat
  stateAfter : Nat
  subresource : Nat
deriving DecidableEq, Repr

/-- The state of a `CommandList` that `transition` reads and writes. `lastStates` is the
`Map` from resource to state vector, kept as an association list; `cmdList` is the
sequence of barriers recorded so far with `ResourceBarrier`. -/
structure CommandList where
  valid : Bool
  lastStates : List (Nat × SubresStates)
  pendingBarriers : List PendingResourceBarrier
  cmdList : List ResourceBarrier
deriving DecidableEq, Repr

/-- Lookup in the map: `lastStates.find(res)`. -/
def find : List (Nat × SubresStates) → Nat → Option SubresStates
  | [], _ => none
  | (k, v) :: m, res => if k = res then some v else find m res

/-- Store into the map: `lastStates[res] = states`. -/
def assign : List (Nat × SubresStates) → Nat → SubresStates → List (Nat × SubresStates)
  | [], res, states => [(res, states)]
  | (k, v) :: m, res, states =>
    if k = res then (k, states) :: m else (k, v) :: assign m res states

/-- The variables the two loops of `transition` work on: the vector `states` (a reference
into `lastStates`), the pending list and the recorded barriers. -/
structure LoopState where
  states : SubresStates
  pendingBarriers : List PendingResourceBarrier
  cmdList : List ResourceBarrier
deriving DecidableEq, Repr

/-- The lambda `pushPendingBarrier`: its argument `state` is not used. -/
def pushPendingBarrier (res stateAfter subresourceIndex : Nat) (s : LoopState) : LoopState :=
  { s with pendingBarriers := s.pendingBarriers ++ [⟨res, stateAfter, subresourceIndex⟩] }

/-- The lambda `pushPendingBarrierIf`, called on `states[i]`. -/
def pushPendingBarrierIf (res stateAfter subresourceIndex : Nat) (s : LoopState) (i : Nat)
    (cond : Nat) : LoopState × Bool :=
  if s.states.getD i 0 = cond then
    let s1 := pushPendingBarrier res stateAfter subresourceIndex s
    ({ s1 with states := s1.states.set i stateAfter }, true)
  else
    (s, false)

/-- Body of the loop of the branch `lastStates.find(res) != lastStates.end()`. -/
def seenBody (res stateAfter subresourceIndex : Nat) (s : LoopState) (i : Nat) : LoopState :=
  if subresourceIndex ≠ D3D12_RESOURCE_BARRIER_ALL_SUBRESOURCES ∧ subresourceIndex ≠ i then
    s
  else if s.states.getD i 0 = stateAfter then
    s
  else
    let r := pushPendingBarrierIf res stateAfter subresourceIndex s i UNKNOWN_STATE
    if r.2 then
      r.1
    else
      let s1 := r.1
      let resBarrier : ResourceBarrier :=
        ⟨res, s1.states.getD i 0, stateAfter, subresourceIndex⟩
      { s1 with cmdList := s1.cmdList ++ [resBarrier], states := s1.states.set i stateAfter }

/-- Body of the loop of the `else` branch (first encounter of the resource). -/
def firstBody (res stateAfter subresourceIndex : Nat) (s : LoopState) (i : Nat) : LoopState :=
  let s1 : LoopState :=
    if subresourceIndex = D3D12_RESOURCE_BARRIER_ALL_SUBRESOURCES then
      { s with states := s.states.set i stateAfter }
    else if i = subresourceIndex then
      { s with states := s.states.set subresourceIndex stateAfter }
    else
      { s with states := s.states.set i UNKNOWN_STATE }
  pushPendingBarrier res stateAfter subresourceIndex s1

/-- Embedding of `CommandList::transition`. `getSubresourcesCount` stands for
`ResourceTracker::getSubresourcesCount`; `resize` fills the new vector with zeros. Both
loops run `i` from `0` to `states.size()`, which no iteration changes. -/
def transition (getSubresourcesCount : Nat → Nat) (c : CommandList)
    (resource stateAfter subresourceIndex : Nat) : CommandList :=
  if c.valid = false then
    c
  else
    let res := resource
    match find c.lastStates res with
    | some states =>
      let s := (List.range states.length).foldl
        (seenBody res stateAfter subresourceIndex) ⟨states, c.pendingBarriers, c.cmdList⟩
      { c with lastStates := assign c.lastStates res s.states,
               pendingBarriers := s.pendingBarriers, cmdList := s.cmdList }
    | none =>
      let states : SubresStates := List.replicate (getSubresourcesCount res) 0
      let s := (List.range states.length).foldl
        (firstBody res stateAfter subresourceIndex) ⟨states, c.pendingBarriers, c.cmdList⟩
      { c with lastStates := assign c.lastStates res s.states,
               pendingBarriers := s.pendingBarriers, cmdList := s.cmdList }

/-- A recorder on which `init` succeeded and nothing has been recorded yet. -/
def fresh : CommandList := ⟨true, [], [], []⟩

/-- Whether the selector `subresourceIndex` covers subresource `i`. -/
def covers (subresourceIndex i : Nat) : Bool :=
  decide (subresourceIndex = D3D12_RESOURCE_BARRIER_ALL_SUBRESOURCES ∨ subresourceIndex = i)

/-- Closed form of the state vector the first-encounter loop builds for `n`
subresources. -/
def firstStates (n stateAfter subresourceIndex : Nat) : SubresStates :=
  (List.range n).map (fun i => if covers subresourceIndex i then stateAfter else UNKNOWN_STATE)

/-- Closed form of the state vector the loop over an already known resource leaves. -/
def seenStates (stateAfter subresourceIndex : Nat) (states : SubresStates) : SubresStates :=
  (List.range states.length).map
    (fun i => if covers subresourceIndex i then stateAfter else states.getD i 0)

/-- Subresource `i` is covered by the selector, differs from `stateAfter` and is still
`UNKNOWN_STATE`: its transition is deferred. -/
def deferredAt (stateAfter subresourceIndex : Nat) (states : SubresStates) (i : Nat) : Bool :=
  covers subresourceIndex i && decide (states.getD i 0 ≠ stateAfter) &&
    decide (states.getD i 0 = UNKNOWN_STATE)

/-- Subresource `i` is covered by the selector and its local state is known and differs
from `stateAfter`: its transition is recorded at once. -/
def immediateAt (stateAfter subresourceIndex : Nat) (states : SubresStates) (i : Nat) : Bool :=
  covers subresourceIndex i && decide (states.getD i 0 ≠ stateAfter) &&
    decide (states.getD i 0 ≠ UNKNOWN_STATE)

/-- The pending barriers the loop over a known resource appends while visiting the first
`k` subresources: one per deferred subresource. -/
def seenPending (res stateAfter subresourceIndex : Nat) (states : SubresStates) (k : Nat) :
    List PendingResourceBarrier :=
  ((List.range k).filter (deferredAt stateAfter subresourceIndex states)).map
    (fun _ => ⟨res, stateAfter, subresourceIndex⟩)

/-- The barriers the loop over a known resource records while visiting the first `k`
subresources: one per subresource with a known, different local state. -/
def seenBarriers (res stateAfter subresourceIndex : Nat) (states : SubresStates) (k : Nat) :
    List ResourceBarrier :=
  ((List.range k).filter (immediateAt stateAfter subresourceIndex states)).map
    (fun i => ⟨res, states.getD i 0, stateAfter, subresourceIndex⟩)

/-- The default constructed recorder (`CommandList::CommandList`): `valid(false)`, an empty
local table, an empty pending list and no command list object. -/
def constructed : CommandList := ⟨false, [], [], []⟩

/-- Embedding of `CommandList::init`, on the state `transition` works with (the member
`type` is not part of it). `succeeded` is `SUCCEEDED(device->CreateCommandList1(...))`;
`RETURN_FALSE_ON_ERROR` is taken in its `D3D12_DEBUG` expansion, the one that tests the
command it is given. `IID_PPV_ARGS(&cmdList)` releases the command list object held so
far, so the recorded barriers start empty on either outcome. -/
def init (c : CommandList) (succeeded : Bool) : CommandList × Bool :=
  if succeeded = false then
    ({ c with cmdList := [] }, false)
  else
    ({ c with cmdList := [], valid := true }, true)

/-- Embedding of `CommandList::isValid`. -/
def isValid (c : CommandList) : Bool := c.valid

/-- Embedding of `CommandList::getPendingResourceBarriers` (a non-`const` member): the
list it returns and the recorder after the call. -/
def getPendingResourceBarriers (c : CommandList) :
    List PendingResourceBarrier × CommandList :=
  (c.pendingBarriers, c)

/-- The arguments of one call of `transition`. -/
structure Call where
  resource : Nat
  stateAfter : Nat
  subresourceIndex : Nat
deriving DecidableEq, Repr

/-- One call of `transition` with the arguments `x`. -/
def call (getSubresourcesCount : Nat → Nat) (c : CommandList) (x : Call) : CommandList :=
  transition getSubresourcesCount c x.resource x.stateAfter x.subresourceIndex

/-- A sequence of calls of `transition`, in order. -/
def runCalls (getSubresourcesCount : Nat → Nat) (c : CommandList) (calls : List Call) :
    CommandList :=
  calls.foldl (call getSubresourcesCount) c

/-- The calls `ResourceTracker::setGlobalStateForSubres(res, state, i)` that the two loops
of `CommandList::resolveLastStates` make over the local table, in order, each as
`(res, state, i)`. -/
def resolveWrites : List (Nat × SubresStates) → List (Nat × Nat × Nat)
  | [] => []
  | (res, states) :: m =>
    (List.range states.length).map (fun i => (res, states.getD i 0, i)) ++ resolveWrites m

/-- Modelled from the spec: the global resource state registry kept by `ResourceTracker`,
whose source is not available: the state of every (resource, subresource). -/
abbrev Registry := Nat → Nat → Nat

/-- Modelled from the spec: `getState(resource, subresourceIndex)` of the registry. -/
def getState (reg : Registry) (res i : Nat) : Nat := reg res i

/-- Modelled from the spec: `ResourceTracker::setGlobalStateForSubres(res, state, i)`, an
overwrite of the registry entry of `(res, i)`; `w` is `(res, state, i)`. -/
def setGlobalStateForSubres (reg : Registry) (w : Nat × Nat × Nat) : Registry :=
  fun res i => if res = w.1 ∧ i = w.2.2 then w.2.1 else reg res i

/-- Embedding of `CommandList::resolveLastStates`, run against the registry `reg`. -/
def resolveLastStates (reg : Registry) (c : CommandList) : Registry :=
  (resolveWrites c.lastStates).foldl setGlobalStateForSubres reg

/-- The number of subresources covered by the selector of `x` whose local state in `c`
is known and differs from the requested state. -/
def knownDifferingTargets (c : CommandList) (x : Call) : Nat :=
  match find c.lastStates x.resource with
  | none => 0
  | some st =>
    ((List.range st.length).filter (immediateAt x.stateAfter x.subresourceIndex st)).length

/-- The number of pairs of a call of the sequence and a subresource covered by its
selector, such that the subresource had a known, differing local state when the call was
made. -/
def knownDifferingPairs (getSubresourcesCount : Nat → Nat) :
    CommandList → List Call → Nat
  | _, [] => 0
  | c, x :: xs =>
    knownDifferingTargets c x +
      knownDifferingPairs getSubresourcesCount (call getSubresourcesCount c x) xs

/-- The number of calls of the sequence that had a target subresource with a known,
differing local state when the call was made. -/
def knownDifferingCalls (getSubresourcesCount : Nat → Nat) :
    CommandList → List Call → Nat
  | _, [] => 0
  | c, x :: xs =>
    (if 0 < knownDifferingTargets c x then 1 else 0) +
      knownDifferingCalls getSubresourcesCount (call getSubresourcesCount c x) xs

/-- Whether the call `x` repeats a state: some subresource covered by its selector already
is in the requested state in `c`. -/
def repeatsState (c : CommandList) (x : Call) : Bool :=
  match find c.lastStates x.resource with
  | none => false
  | some st =>
    (List.range st.length).any
      (fun i => covers x.subresourceIndex i && decide (st.getD i 0 = x.stateAfter))

/-- No call of the sequence repeats the state a target subresource already has. -/
def noRepeat (getSubresourcesCount : Nat → Nat) : CommandList → List Call → Bool
  | _, [] => true
  | c, x :: xs =>
    !repeatsState c x && noRepeat getSubresourcesCount (call getSubresourcesCount c x) xs

/-- The pending barriers that the call `x` on `c` defers: what the pending list holds
after the call beyond its length before the call. -/
def deferredBy (getSubresourcesCount : Nat → Nat) (c : CommandList) (x : Call) :
    List PendingResourceBarrier :=
  (call getSubresourcesCount c x).pendingBarriers.drop c.pendingBarriers.length

/-- The pending barriers deferred by the calls of a sequence, concatenated in call
order. -/
def deferredByAll (getSubresourcesCount : Nat → Nat) :
    CommandList → List Call → List PendingResourceBarrier
  | _, [] => []
  | c, x :: xs =>
    deferredBy getSubresourcesCount c x ++
      deferredByAll getSubresourcesCount (call getSubresourcesCount c x) xs

/-- Whether some call of the sequence names the resource `r`: on a valid recorder, whether
the recorder has observed `r`. -/
def observed (calls : List Call) (r : Nat) : Bool :=
  calls.any (fun x => decide (x.resource = r))

/-- Whether some call of the sequence names the resource `r` with a selector that matches
subresource `i`. -/
def touched (calls : List Call) (r i : Nat) : Bool :=
  calls.any (fun x => decide (x.resource = r) && covers x.subresourceIndex i)

/-- A barrier is sound for the local state vector `states` of its resource when its
before-state is the local state of every subresource it names: all of them for
`D3D12_RESOURCE_BARRIER_ALL_SUBRESOURCES`, else the one at its index. -/
def soundFor (b : ResourceBarrier) (states : SubresStates) : Bool :=
  if b.subresource = D3D12_RESOURCE_BARRIER_ALL_SUBRESOURCES then
    states.all (fun s => decide (s = b.stateBefore))
  else
    decide (states.getD b.subresource 0 = b.stateBefore)

end D3D12

/-! ## Pool: lemmas and theorems -/

namespace Dar.PooledVector

variable {T : Type}

theorem getD_eq_join (l : List (Option T)) (i : Nat) : l.getD i none = (l[i]?).join := by
  rw [List.getD_eq_getElem?_getD]
  cases l[i]? <;> rfl

theorem at_eq (p : PooledVector T) (idx : Nat)
    (h1 : idx ≠ INVALID_POOLED_INDEX) (h2 : idx < p.arr.length) :
    p.at_ idx = (p.arr[idx]?).join := by
  unfold at_
  rw [if_neg (by omega), getD_eq_join]

theorem release_fail (p : PooledVector T) (index : Nat)
    (h : index = INVALID_POOLED_INDEX ∨ index ≥ p.arr.length ∨ p.arr[index]? = some none) :
    p.release index = ⟨p, INVALID_POOLED_INDEX, false⟩ := by
  show (if index = INVALID_POOLED_INDEX then (⟨p, INVALID_POOLED_INDEX, false⟩ : ReleaseResult T)
    else if index ≥ p.arr.length then ⟨p, INVALID_POOLED_INDEX, false⟩
    else match p.arr.getD index none with
      | none => ⟨p, INVALID_POOLED_INDEX, false⟩
      | some _ => ⟨{ arr := p.arr.set index none, freeIndices := p.freeIndices ++ [index] },
          INVALID_POOLED_INDEX, true⟩) = _
  split
  · rfl
  split
  · rfl
  rcases h with h | h | h
  · contradiction
  · contradiction
  · rw [getD_eq_join, h]
    rfl

theorem release_ok (p : PooledVector T) (index : Nat) (v : T)
    (h1 : index ≠ INVALID_POOLED_INDEX) (hv : p.arr[index]? = some (some v)) :
    p.release index =
      ⟨{ arr := p.arr.set index none, freeIndices := p.freeIndices ++ [index] },
        INVALID_POOLED_INDEX, true⟩ := by
  have h3 : index < p.arr.length := by
    rcases Nat.lt_or_ge index p.arr.length with h | h
    · exact h
    · rw [List.getElem?_eq_none h] at hv
      cases hv
  show (if index = INVALID_POOLED_INDEX then (⟨p, INVALID_POOLED_INDEX, false⟩ : ReleaseResult T)
    else if index ≥ p.arr.length then ⟨p, INVALID_POOLED_INDEX, false⟩
    else match p.arr.getD index none with
      | none => ⟨p, INVALID_POOLED_INDEX, false⟩
      | some _ => ⟨{ arr := p.arr.set index none, freeIndices := p.freeIndices ++ [index] },
          INVALID_POOLED_INDEX, true⟩) = _
  rw [if_neg h1, if_neg (by omega), getD_eq_join, hv]
  rfl

/-- Every call of `release` falls under `release_fail` or `release_ok`. -/
theorem release_cases (p : PooledVector T) (index : Nat) :
    (index = INVALID_POOLED_INDEX ∨ index ≥ p.arr.length ∨ p.arr[index]? = some none) ∨
    (index ≠ INVALID_POOLED_INDEX ∧ ∃ v, p.arr[index]? = some (some v)) := by
  by_cases h1 : index = INVALID_POOLED_INDEX
  · exact Or.inl (Or.inl h1)
  rcases Nat.lt_or_ge index p.arr.length with h2 | h2
  · rw [List.getElem?_eq_getElem h2]
    cases p.arr[index] with
    | none => exact Or.inl (Or.inr (Or.inr rfl))
    | some v => exact Or.inr ⟨h1, v, rfl⟩
  · exact Or.inl (Or.inr (Or.inl h2))

/-- C3: `release(index)` returns false exactly when `index` is the invalid sentinel, is
out of range (`index >= arr.size()`), or names a slot that holds no value; and whenever it
returns false the slot vector and the free queue are the ones from before the call. -/
theorem release_false_iff (p : PooledVector T) (index : Nat) :
    ((p.release index).ok = false ↔
      (index = INVALID_POOLED_INDEX ∨ index ≥ p.arr.length ∨ p.arr[index]? = some none)) ∧
    ((p.release index).ok = false →
      (p.release index).pool.arr = p.arr ∧
      (p.release index).pool.freeIndices = p.freeIndices) := by
  rcases release_cases p index with h | ⟨h1, v, hv⟩
  · rw [release_fail p index h]
    exact ⟨⟨fun _ => h, fun _ => rfl⟩, fun _ => ⟨rfl, rfl⟩⟩
  · rw [release_ok p index v h1 hv]
    refine ⟨⟨fun h => (by cases h), ?_⟩, fun h => (by cases h)⟩
    rintro (h | h | h)
    · exact absurd h h1
    · rw [List.getElem?_eq_none h] at hv
      cases hv
    · rw [h] at hv
      cases hv

/-- C4: `release(index)` always leaves the caller's index variable equal to
`INVALID_POOLED_INDEX`; and when `index` names a slot that holds a value (in a pool with
fewer than `2 ^ 64 - 1` slots, the most a `size_t` index other than the sentinel can
address), it returns true, `at(index)` is absent afterwards and `at(j)` is unchanged for
every other `j`. -/
theorem release_sets_sentinel (p : PooledVector T) (index : Nat) :
    (p.release index).index = INVALID_POOLED_INDEX ∧
    (∀ v, p.arr.length ≤ INVALID_POOLED_INDEX → p.arr[index]? = some (some v) →
      (p.release index).ok = true ∧
      (p.release index).pool.at_ index = none ∧
      ∀ j, j ≠ index → (p.release index).pool.at_ j = p.at_ j) := by
  refine ⟨?_, ?_⟩
  · rcases release_cases p index with h | ⟨h1, v, hv⟩
    · rw [release_fail p index h]
    · rw [release_ok p index v h1 hv]
  · intro v hlen hv
    have h3 : index < p.arr.length := by
      rcases Nat.lt_or_ge index p.arr.length with h | h
      · exact h
      · rw [List.getElem?_eq_none h] at hv
        cases hv
    have h1 : index ≠ INVALID_POOLED_INDEX := by omega
    rw [release_ok p index v h1 hv]
    refine ⟨rfl, ?_, ?_⟩
    · rw [at_eq _ _ h1 (by simpa using h3)]
      simp [h3, Option.join]
    · intro j hj
      unfold at_
      simp only [List.length_set]
      by_cases hc : j = INVALID_POOLED_INDEX ∨ j ≥ p.arr.length
      · rw [if_pos hc, if_pos hc]
      · rw [if_neg hc, if_neg hc, getD_eq_join, getD_eq_join,
          List.getElem?_set_ne (Ne.symm hj)]

theorem release_sets_sentinel_witness :
    (⟨[some 7, some 8], []⟩ : PooledVector Nat).arr.length ≤ INVALID_POOLED_INDEX ∧
    (⟨[some 7, some 8], []⟩ : PooledVector Nat).arr[0]? = some (some 7) ∧
    ((⟨[some 7, some 8], []⟩ : PooledVector Nat).release 0).index = INVALID_POOLED_INDEX ∧
    ((⟨[some 7, some 8], []⟩ : PooledVector Nat).release 0).ok = true ∧
    ((⟨[some 7, some 8], []⟩ : PooledVector Nat).release 0).pool.at_ 0 = none :=
  ⟨by decide, by decide, (release_sets_sentinel ⟨[some 7, some 8], []⟩ 0).1,
    ((release_sets_sentinel ⟨[some 7, some 8], []⟩ 0).2 7 (by decide) (by decide)).1,
    ((release_sets_sentinel ⟨[some 7, some 8], []⟩ 0).2 7 (by decide) (by decide)).2.1⟩

/-- C5: `at(idx)` is a total function of the pool and the index (it cannot fail, and being
`const` it yields no new pool): it is absent when `idx` is the invalid sentinel, when
`idx >= arr.size()`, and when the slot holds no value; in every other case it is the
value stored in slot `idx`. -/
theorem at_absent_or_stored (p : PooledVector T) (idx : Nat) :
    (idx = INVALID_POOLED_INDEX → p.at_ idx = none) ∧
    (idx ≥ p.arr.length → p.at_ idx = none) ∧
    (p.arr[idx]? = some none → p.at_ idx = none) ∧
    (∀ v, idx ≠ INVALID_POOLED_INDEX → p.arr[idx]? = some (some v) → p.at_ idx = some v) := by
  refine ⟨?_, ?_, ?_, ?_⟩
  · intro h
    simp [at_, h]
  · intro h
    simp [at_, h]
  · intro h
    unfold at_
    split
    · rfl
    · rw [getD_eq_join, h]
      rfl
  · intro v h1 hv
    have h3 : idx < p.arr.length := by
      rcases Nat.lt_or_ge idx p.arr.length with h | h
      · exact h
      · rw [List.getElem?_eq_none h] at hv
        cases hv
    rw [at_eq _ _ h1 h3, hv]
    rfl

theorem at_absent_or_stored_witness :
    (0 : Nat) ≠ INVALID_POOLED_INDEX ∧
    (⟨[some 7, none], [1]⟩ : PooledVector Nat).arr[0]? = some (some 7) ∧
    (⟨[some 7, none], [1]⟩ : PooledVector Nat).at_ 0 = some 7 ∧
    (⟨[some 7, none], [1]⟩ : PooledVector Nat).arr[1]? = some none ∧
    (⟨[some 7, none], [1]⟩ : PooledVector Nat).at_ 1 = none :=
  ⟨by decide, by decide,
    (at_absent_or_stored ⟨[some 7, none], [1]⟩ 0).2.2.2 7 (by decide) (by decide),
    by decide, (at_absent_or_stored ⟨[some 7, none], [1]⟩ 1).2.2.1 (by decide)⟩

theorem push_grow (p : PooledVector T) (v : T) (h : p.freeIndices = [])
    (hlen : p.arr.length < INVALID_POOLED_INDEX) :
    p.push v = (⟨p.arr ++ [some v], []⟩, p.arr.length) := by
  obtain ⟨arr, free⟩ := p
  simp only at h hlen
  subst h
  unfold INVALID_POOLED_INDEX at hlen
  show ((⟨arr ++ [some v], []⟩ : PooledVector T),
    ((arr ++ [some v]).length + 2 ^ 64 - 1) % 2 ^ 64) = _
  have e : ((arr ++ [some v]).length + 2 ^ 64 - 1) % 2 ^ 64 = arr.length := by
    rw [List.length_append, List.length_singleton]
    omega
  rw [e]

theorem push_reuse (p : PooledVector T) (v : T) (idx : Nat) (rest : List Nat)
    (h : p.freeIndices = idx :: rest) :
    p.push v = (⟨p.arr.set idx (some v), rest⟩, idx) := by
  obtain ⟨arr, free⟩ := p
  simp only at h
  subst h
  rfl

theorem getElem?_some_lt {α : Type} (l : List α) (i : Nat) (a : α) (h : l[i]? = some a) :
    i < l.length := by
  rcases Nat.lt_or_ge i l.length with h1 | h1
  · exact h1
  · rw [List.getElem?_eq_none h1] at h
    cases h

theorem WF_empty : WF (empty : PooledVector T) := by
  refine ⟨List.nodup_nil, fun i => ?_⟩
  simp [empty]

theorem WF_push (p : PooledVector T) (v : T) (h : WF p)
    (hlen : p.arr.length < INVALID_POOLED_INDEX) : WF (p.push v).1 := by
  obtain ⟨hnd, hiff⟩ := h
  cases hf : p.freeIndices with
  | nil =>
    rw [push_grow p v hf hlen]
    refine ⟨List.nodup_nil, fun i => ?_⟩
    simp only [List.not_mem_nil, false_iff]
    intro hi
    have hlt := getElem?_some_lt _ _ _ hi
    rw [List.length_append, List.length_singleton] at hlt
    rcases Nat.lt_or_ge i p.arr.length with h1 | h1
    · rw [List.getElem?_append_left h1] at hi
      have := (hiff i).mpr hi
      rw [hf] at this
      cases this
    · have e : i = p.arr.length := by omega
      subst e
      simp at hi
  | cons idx rest =>
    rw [push_reuse p v idx rest hf]
    rw [hf] at hnd hiff
    have hidx : p.arr[idx]? = some none := (hiff idx).mp (List.mem_cons_self _ _)
    have hlt := getElem?_some_lt _ _ _ hidx
    have hnd2 := List.nodup_cons.mp hnd
    refine ⟨hnd2.2, fun i => ?_⟩
    show i ∈ rest ↔ (p.arr.set idx (some v))[i]? = some none
    by_cases hi : i = idx
    · subst hi
      rw [List.getElem?_set_self hlt]
      constructor
      · intro hm
        exact absurd hm hnd2.1
      · intro hc
        cases hc
    · rw [List.getElem?_set_ne (Ne.symm hi), ← hiff i]
      simp [hi]

theorem WF_release (p : PooledVector T) (index : Nat) (h : WF p) :
    WF (p.release index).pool := by
  rcases release_cases p index with hc | ⟨h1, v, hv⟩
  · rw [release_fail p index hc]
    exact h
  · rw [release_ok p index v h1 hv]
    obtain ⟨hnd, hiff⟩ := h
    have hlt := getElem?_some_lt _ _ _ hv
    have hnot : index ∉ p.freeIndices := by
      intro hm
      have := (hiff index).mp hm
      rw [hv] at this
      cases this
    refine ⟨?_, fun i => ?_⟩
    · show (p.freeIndices ++ [index]).Nodup
      rw [List.nodup_append]
      refine ⟨hnd, List.nodup_singleton _, ?_⟩
      intro a ha hb
      rw [List.mem_singleton] at hb
      subst hb
      exact hnot ha
    · show i ∈ p.freeIndices ++ [index] ↔ (p.arr.set index none)[i]? = some none
      by_cases hi : i = index
      · subst hi
        rw [List.getElem?_set_self hlt]
        simp
      · rw [List.getElem?_set_ne (Ne.symm hi), ← hiff i]
        simp [hi]

theorem Inv_step (t : Trace T) (n : Nat) (op : Op T) (h : t.Inv n)
    (hn : n < INVALID_POOLED_INDEX) : (t.step op).Inv (n + 1) := by
  obtain ⟨hlen, hwf, hfreed, hnd, hlive⟩ := h
  have hlen2 : t.pool.arr.length < INVALID_POOLED_INDEX := by omega
  cases op with
  | push v =>
    have hwf2 := WF_push t.pool v hwf hlen2
    cases hf : t.pool.freeIndices with
    | nil =>
      have e := push_grow t.pool v hf hlen2
      simp only [Trace.step]
      rw [e] at hwf2 ⊢
      refine ⟨?_, hwf2, ?_, ?_, ?_⟩
      · simp only [List.length_append, List.length_singleton]
        omega
      · simp [hfreed, hf]
      · rw [List.map_append, List.nodup_append]
        refine ⟨hnd, List.nodup_singleton _, ?_⟩
        intro a ha hb
        simp only [List.map_cons, List.map_nil, List.mem_singleton] at hb
        subst hb
        obtain ⟨e1, he1, he2⟩ := List.mem_map.mp ha
        have := getElem?_some_lt _ _ _ (hlive e1 he1)
        omega
      · intro e1 he1
        rcases List.mem_append.mp he1 with hm | hm
        · have h3 := hlive e1 hm
          show (t.pool.arr ++ [some v])[e1.1]? = some (some e1.2)
          rw [List.getElem?_append_left (getElem?_some_lt _ _ _ h3)]
          exact h3
        · rw [List.mem_singleton] at hm
          subst hm
          show (t.pool.arr ++ [some v])[t.pool.arr.length]? = some (some v)
          simp
    | cons idx rest =>
      have e := push_reuse t.pool v idx rest hf
      simp only [Trace.step]
      rw [e] at hwf2 ⊢
      have hidx : t.pool.arr[idx]? = some none := by
        apply (hwf.2 idx).mp
        rw [hf]
        exact List.mem_cons_self _ _
      have hlt := getElem?_some_lt _ _ _ hidx
      have hne : ∀ e1 ∈ t.live, e1.1 ≠ idx := by
        intro e1 he1 hc
        have h3 := hlive e1 he1
        rw [hc, hidx] at h3
        cases h3
      refine ⟨?_, hwf2, ?_, ?_, ?_⟩
      · simp only [List.length_set]
        omega
      · simp [hfreed, hf]
      · rw [List.map_append, List.nodup_append]
        refine ⟨hnd, List.nodup_singleton _, ?_⟩
        intro a ha hb
        simp only [List.map_cons, List.map_nil, List.mem_singleton] at hb
        subst hb
        obtain ⟨e1, he1, he2⟩ := List.mem_map.mp ha
        exact hne e1 he1 he2
      · intro e1 he1
        rcases List.mem_append.mp he1 with hm | hm
        · show (t.pool.arr.set idx (some v))[e1.1]? = some (some e1.2)
          rw [List.getElem?_set_ne (Ne.symm (hne e1 hm))]
          exact hlive e1 hm
        · rw [List.mem_singleton] at hm
          subst hm
          show (t.pool.arr.set idx (some v))[idx]? = some (some v)
          rw [List.getElem?_set_self hlt]
  | release index =>
    have hwf2 := WF_release t.pool index hwf
    rcases release_cases t.pool index with hc | ⟨h1, v, hv⟩
    · have e := release_fail t.pool index hc
      simp only [Trace.step]
      rw [e]
      exact ⟨Nat.le_succ_of_le hlen, hwf, hfreed, hnd, hlive⟩
    · have e := release_ok t.pool index v h1 hv
      simp only [Trace.step]
      rw [e] at hwf2 ⊢
      refine ⟨?_, hwf2, ?_, ?_, ?_⟩
      · simp only [List.length_set]
        omega
      · simp [hfreed]
      · simp only [if_true]
        exact (List.filter_sublist _).map Prod.fst |>.nodup hnd
      · intro e1 he1
        simp only [if_true, List.mem_filter, decide_eq_true_eq] at he1
        show (t.pool.arr.set index none)[e1.1]? = some (some e1.2)
        rw [List.getElem?_set_ne (Ne.symm he1.2)]
        exact hlive e1 he1.1

theorem run_append (ops : List (Op T)) (op : Op T) :
    run (ops ++ [op]) = (run ops).step op := by
  simp [run, List.foldl_append]

theorem Inv_run (ops : List (Op T)) (hn : ops.length ≤ INVALID_POOLED_INDEX) :
    (run ops).Inv ops.length := by
  induction ops using List.reverseRecOn with
  | nil =>
    refine ⟨Nat.le_refl _, WF_empty, rfl, List.nodup_nil, ?_⟩
    intro e he
    cases he
  | append_singleton ops op ih =>
    rw [List.length_append, List.length_singleton] at hn ⊢
    rw [run_append]
    exact Inv_step _ _ op (ih (by omega)) (by omega)

/-- C1: for every sequence of `push` and `release` calls on an initially empty pool (of
fewer than `2 ^ 64` calls, so that the slot count stays within `size_t`), at every point
`k` of the sequence the indices returned by `push` and not yet released are pairwise
distinct, and `at` of each of them is the value passed to the `push` that returned it. -/
theorem live_indices_distinct_and_resolve (ops : List (Op T)) (k : Nat)
    (hn : ops.length ≤ INVALID_POOLED_INDEX) :
    ((run (ops.take k)).live.map Prod.fst).Nodup ∧
    ∀ e ∈ (run (ops.take k)).live, (run (ops.take k)).pool.at_ e.1 = some e.2 := by
  have hk : (ops.take k).length ≤ INVALID_POOLED_INDEX := by
    rw [List.length_take]
    omega
  obtain ⟨hlen, -, -, hnd, hlive⟩ := Inv_run (ops.take k) hk
  refine ⟨hnd, fun e he => ?_⟩
  have h3 := hlive e he
  have hlt := getElem?_some_lt _ _ _ h3
  rw [at_eq _ _ (by omega) hlt, h3]
  rfl

theorem live_indices_distinct_and_resolve_witness :
    [Op.push 7, Op.push 8, Op.release 0, Op.push 9].length ≤ INVALID_POOLED_INDEX ∧
    (((run ([Op.push 7, Op.push 8, Op.release 0, Op.push 9].take 4)).live.map Prod.fst).Nodup ∧
      ∀ e ∈ (run ([Op.push 7, Op.push 8, Op.release 0, Op.push 9].take 4)).live,
        (run ([Op.push 7, Op.push 8, Op.release 0, Op.push 9].take 4)).pool.at_ e.1
          = some e.2) :=
  ⟨by decide,
    live_indices_distinct_and_resolve [Op.push 7, Op.push 8, Op.release 0, Op.push 9] 4
      (by decide)⟩

/-- C2: after any sequence of calls on an initially empty pool (fewer than `2 ^ 64 - 1`
calls), if some released index has not been reused, `push(v)` returns the one released
earliest and the number of slots stays the same; if none is free, `push(v)` returns the
previous number of slots and the pool grows by exactly one slot. Scenario: `push(a)` is 0,
`push(b)` is 1, `release(0)` succeeds, `push(c)` is 0, then `at(0)` is `c` and `at(1)` is
`b`. -/
theorem push_reuses_oldest_free (ops : List (Op T)) (v : T)
    (hn : ops.length < INVALID_POOLED_INDEX) :
    (∀ idx rest, (run ops).freed = idx :: rest →
      ((run ops).pool.push v).2 = idx ∧
      ((run ops).pool.push v).1.arr.length = (run ops).pool.arr.length) ∧
    ((run ops).freed = [] →
      ((run ops).pool.push v).2 = (run ops).pool.arr.length ∧
      ((run ops).pool.push v).1.arr.length = (run ops).pool.arr.length + 1) ∧
    (∀ a b c : T,
      ((empty : PooledVector T).push a).2 = 0 ∧
      (((empty : PooledVector T).push a).1.push b).2 = 1 ∧
      ((((empty : PooledVector T).push a).1.push b).1.release 0).ok = true ∧
      (((((empty : PooledVector T).push a).1.push b).1.release 0).pool.push c).2 = 0 ∧
      (((((empty : PooledVector T).push a).1.push b).1.release 0).pool.push c).1.at_ 0
        = some c ∧
      (((((empty : PooledVector T).push a).1.push b).1.release 0).pool.push c).1.at_ 1
        = some b) := by
  obtain ⟨hlen, -, hfreed, -, -⟩ := Inv_run ops (Nat.le_of_lt hn)
  refine ⟨?_, ?_, ?_⟩
  · intro idx rest h
    rw [hfreed] at h
    rw [push_reuse _ v idx rest h]
    exact ⟨rfl, List.length_set _ _ _⟩
  · intro h
    rw [hfreed] at h
    rw [push_grow _ v h (by omega)]
    exact ⟨rfl, by simp⟩
  · intro a b c
    have e1 : (empty : PooledVector T).push a = (⟨[some a], []⟩, 0) :=
      push_grow empty a rfl (show 0 < INVALID_POOLED_INDEX by decide)
    have e2 : (⟨[some a], []⟩ : PooledVector T).push b = (⟨[some a, some b], []⟩, 1) :=
      push_grow ⟨[some a], []⟩ b rfl (show 1 < INVALID_POOLED_INDEX by decide)
    have e3 : (⟨[some a, some b], []⟩ : PooledVector T).release 0
        = ⟨⟨[none, some b], [0]⟩, INVALID_POOLED_INDEX, true⟩ :=
      release_ok ⟨[some a, some b], []⟩ 0 a (by decide) rfl
    have e4 : (⟨[none, some b], [0]⟩ : PooledVector T).push c
        = (⟨[some c, some b], []⟩, 0) :=
      push_reuse ⟨[none, some b], [0]⟩ c 0 [] rfl
    have e5 : (⟨[some c, some b], []⟩ : PooledVector T).at_ 0 = some c := by
      rw [at_eq ⟨[some c, some b], []⟩ 0 (by decide) (show 0 < 2 by decide)]
      rfl
    have e6 : (⟨[some c, some b], []⟩ : PooledVector T).at_ 1 = some b := by
      rw [at_eq ⟨[some c, some b], []⟩ 1 (by decide) (show 1 < 2 by decide)]
      rfl
    simp only [e1, e2, e3, e4, e5, e6, and_self]

theorem push_reuses_oldest_free_witness :
    [Op.push 7, Op.push 8, Op.release 1, Op.release 0].length < INVALID_POOLED_INDEX ∧
    (run [Op.push 7, Op.push 8, Op.release 1, Op.release 0]).freed = [1, 0] ∧
    ((run [Op.push 7, Op.push 8, Op.release 1, Op.release 0]).pool.push 9).2 = 1 :=
  ⟨by decide, by decide,
    ((push_reuses_oldest_free [Op.push 7, Op.push 8, Op.release 1, Op.release 0] 9
      (by decide)).1 1 [0] (by decide)).1⟩

/-- C16: after every sequence of `push` and `release` calls on an initially empty pool
(at most `2 ^ 64 - 1` calls), whatever indices the `release` calls are given, the free
queue holds no index twice, and every index in it is in range and names a slot that holds
no value. -/
theorem free_queue_no_double_free (ops : List (Op T))
    (hn : ops.length ≤ INVALID_POOLED_INDEX) :
    (run ops).pool.freeIndices.Nodup ∧
    ∀ i ∈ (run ops).pool.freeIndices,
      i < (run ops).pool.arr.length ∧ (run ops).pool.arr[i]? = some none := by
  obtain ⟨-, hwf, -, -, -⟩ := Inv_run ops hn
  refine ⟨hwf.1, fun i hi => ?_⟩
  have h := (hwf.2 i).mp hi
  exact ⟨getElem?_some_lt _ _ _ h, h⟩

theorem free_queue_no_double_free_witness :
    [Op.push 7, Op.push 8, Op.release 0, Op.release 0, Op.release 5,
      Op.release INVALID_POOLED_INDEX, Op.release 1, Op.release 1].length
        ≤ INVALID_POOLED_INDEX ∧
    (run [Op.push 7, Op.push 8, Op.release 0, Op.release 0, Op.release 5,
      Op.release INVALID_POOLED_INDEX, Op.release 1, Op.release 1]).pool.freeIndices
        = [0, 1] ∧
    ((run [Op.push 7, Op.push 8, Op.release 0, Op.release 0, Op.release 5,
      Op.release INVALID_POOLED_INDEX, Op.release 1, Op.release 1]).pool.freeIndices.Nodup ∧
    ∀ i ∈ (run [Op.push 7, Op.push 8, Op.release 0, Op.release 0, Op.release 5,
      Op.release INVALID_POOLED_INDEX, Op.release 1, Op.release 1]).pool.freeIndices,
      i < (run [Op.push 7, Op.push 8, Op.release 0, Op.release 0, Op.release 5,
        Op.release INVALID_POOLED_INDEX, Op.release 1, Op.release 1]).pool.arr.length ∧
      (run [Op.push 7, Op.push 8, Op.release 0, Op.release 0, Op.release 5,
        Op.release INVALID_POOLED_INDEX, Op.release 1, Op.release 1]).pool.arr[i]?
          = some none) :=
  ⟨by decide, by decide,
    free_queue_no_double_free [Op.push 7, Op.push 8, Op.release 0, Op.release 0,
      Op.release 5, Op.release INVALID_POOLED_INDEX, Op.release 1, Op.release 1]
      (by decide)⟩

theorem filter_ne_length (l : List (Nat × T)) (idx : Nat) (v : T)
    (hnd : (l.map Prod.fst).Nodup) (hm : (idx, v) ∈ l) :
    (l.filter (fun e => decide (e.1 ≠ idx))).length + 1 = l.length := by
  induction l with
  | nil => cases hm
  | cons e l ih =>
    rw [List.map_cons, List.nodup_cons] at hnd
    by_cases he : e.1 = idx
    · have hall : ∀ a ∈ l, decide (a.1 ≠ idx) = true := by
        intro a ha
        apply decide_eq_true
        intro hc
        apply hnd.1
        rw [he, ← hc]
        exact List.mem_map_of_mem Prod.fst ha
      have hf : l.filter (fun e => decide (e.1 ≠ idx)) = l := List.filter_eq_self.mpr hall
      have hd : ¬ (decide (e.1 ≠ idx) = true) := by
        intro hc
        exact (of_decide_eq_true hc) he
      have e1 : (e :: l).filter (fun e => decide (e.1 ≠ idx))
          = l.filter (fun e => decide (e.1 ≠ idx)) := List.filter_cons_of_neg hd
      rw [e1, hf, List.length_cons]
    · have hm2 : (idx, v) ∈ l := by
        rcases List.mem_cons.mp hm with h | h
        · exact absurd (by rw [← h]) he
        · exact h
      have := ih hnd.2 hm2
      have hd : decide (e.1 ≠ idx) = true := decide_eq_true he
      have e1 : (e :: l).filter (fun e => decide (e.1 ≠ idx))
          = e :: l.filter (fun e => decide (e.1 ≠ idx)) := List.filter_cons_of_pos hd
      rw [e1, List.length_cons, List.length_cons]
      omega

theorem Full_step (t : Trace T) (n : Nat) (op : Op T) (h : t.Inv n) (hF : t.Full)
    (hn : n < INVALID_POOLED_INDEX) : (t.step op).Full := by
  obtain ⟨hlen, hwf, hfreed, hnd, hlive⟩ := h
  obtain ⟨hcov, hcount⟩ := hF
  have hlen2 : t.pool.arr.length < INVALID_POOLED_INDEX := by omega
  cases op with
  | push v =>
    cases hf : t.pool.freeIndices with
    | nil =>
      have e := push_grow t.pool v hf hlen2
      simp only [Trace.step]
      rw [e]
      refine ⟨?_, ?_⟩
      · intro i w hi
        show (i, w) ∈ t.live ++ [(t.pool.arr.length, v)]
        have hi2 : (t.pool.arr ++ [some v])[i]? = some (some w) := hi
        rcases Nat.lt_or_ge i t.pool.arr.length with h1 | h1
        · rw [List.getElem?_append_left h1] at hi2
          exact List.mem_append_left _ (hcov i w hi2)
        · have hlt := getElem?_some_lt _ _ _ hi2
          rw [List.length_append, List.length_singleton] at hlt
          have e2 : i = t.pool.arr.length := by omega
          subst e2
          simp at hi2
          subst hi2
          exact List.mem_append_right _ (List.mem_singleton_self _)
      · show (t.pool.arr ++ [some v]).length = (t.live ++ [_]).length + ([] : List Nat).length
        rw [hf] at hcount
        simp only [List.length_append, List.length_singleton, List.length_nil] at hcount ⊢
        omega
    | cons idx rest =>
      have e := push_reuse t.pool v idx rest hf
      simp only [Trace.step]
      rw [e]
      have hidx : t.pool.arr[idx]? = some none := by
        apply (hwf.2 idx).mp
        rw [hf]
        exact List.mem_cons_self _ _
      have hlt := getElem?_some_lt _ _ _ hidx
      refine ⟨?_, ?_⟩
      · intro i w hi
        show (i, w) ∈ t.live ++ [(idx, v)]
        have hi2 : (t.pool.arr.set idx (some v))[i]? = some (some w) := hi
        by_cases hii : i = idx
        · subst hii
          rw [List.getElem?_set_self hlt] at hi2
          simp only [Option.some.injEq] at hi2
          subst hi2
          exact List.mem_append_right _ (List.mem_singleton_self _)
        · rw [List.getElem?_set_ne (Ne.symm hii)] at hi2
          exact List.mem_append_left _ (hcov i w hi2)
      · show (t.pool.arr.set idx (some v)).length = (t.live ++ [_]).length + rest.length
        rw [hf] at hcount
        simp only [List.length_set, List.length_append, List.length_singleton,
          List.length_cons, List.length_nil] at hcount ⊢
        omega
  | release index =>
    rcases release_cases t.pool index with hc | ⟨h1, v, hv⟩
    · have e := release_fail t.pool index hc
      simp only [Trace.step]
      rw [e]
      exact ⟨hcov, hcount⟩
    · have e := release_ok t.pool index v h1 hv
      simp only [Trace.step]
      rw [e]
      simp only [if_true]
      refine ⟨?_, ?_⟩
      · intro i w hi
        have hi2 : (t.pool.arr.set index none)[i]? = some (some w) := hi
        have hlt := getElem?_some_lt _ _ _ hv
        by_cases hii : i = index
        · subst hii
          rw [List.getElem?_set_self hlt] at hi2
          cases hi2
        · rw [List.getElem?_set_ne (Ne.symm hii)] at hi2
          show (i, w) ∈ t.live.filter (fun e => decide (e.1 ≠ index))
          rw [List.mem_filter]
          exact ⟨hcov i w hi2, decide_eq_true hii⟩
      · show (t.pool.arr.set index none).length
          = (t.live.filter (fun e => decide (e.1 ≠ index))).length
            + (t.pool.freeIndices ++ [index]).length
        have hf := filter_ne_length t.live index v hnd (hcov index v hv)
        simp only [List.length_set, List.length_append, List.length_singleton]
        omega

theorem Full_run (ops : List (Op T)) (hn : ops.length ≤ INVALID_POOLED_INDEX) :
    (run ops).Full := by
  induction ops using List.reverseRecOn with
  | nil =>
    refine ⟨?_, rfl⟩
    intro i v hi
    simp [run, empty] at hi
  | append_singleton ops op ih =>
    rw [List.length_append, List.length_singleton] at hn
    rw [run_append]
    exact Full_step _ _ op (Inv_run ops (by omega)) (ih (by omega)) (by omega)

theorem step_length_mono (t : Trace T) (op : Op T) :
    t.pool.arr.length ≤ (t.step op).pool.arr.length := by
  cases op with
  | push v =>
    cases hf : t.pool.freeIndices with
    | nil =>
      simp only [Trace.step, push, hf]
      simp
    | cons idx rest =>
      rw [show (t.step (Op.push v)).pool = (t.pool.push v).1 from rfl,
        push_reuse t.pool v idx rest hf]
      simp
  | release index =>
    rcases release_cases t.pool index with hc | ⟨h1, v, hv⟩
    · rw [show (t.step (Op.release index)).pool = (t.pool.release index).pool from rfl,
        release_fail t.pool index hc]
    · rw [show (t.step (Op.release index)).pool = (t.pool.release index).pool from rfl,
        release_ok t.pool index v h1 hv]
      simp

theorem foldl_length_mono (ops : List (Op T)) (t : Trace T) :
    t.pool.arr.length ≤ (ops.foldl Trace.step t).pool.arr.length := by
  induction ops generalizing t with
  | nil => exact Nat.le_refl _
  | cons op ops ih =>
    exact Nat.le_trans (step_length_mono t op) (ih (t.step op))

/-- C22: after every sequence of `push` and `release` calls on an initially empty pool
(at most `2 ^ 64 - 1` calls), the free queue holds, each once, exactly the indices of the
slots that hold no value; the number of slots is the number of live indices (returned by
`push` and not released since) plus the length of the free queue; and the number of slots
at any earlier point `k` of the sequence is at most the number at the end. -/
theorem no_slot_leaked (ops : List (Op T)) (hn : ops.length ≤ INVALID_POOLED_INDEX) :
    ((run ops).pool.freeIndices.Nodup ∧
      ∀ i, i ∈ (run ops).pool.freeIndices ↔
        (i < (run ops).pool.arr.length ∧ (run ops).pool.arr[i]? = some none)) ∧
    (run ops).pool.arr.length
      = (run ops).live.length + (run ops).pool.freeIndices.length ∧
    ∀ k, (run (ops.take k)).pool.arr.length ≤ (run ops).pool.arr.length := by
  obtain ⟨-, hwf, -, -, -⟩ := Inv_run ops hn
  obtain ⟨-, hcount⟩ := Full_run ops hn
  refine ⟨⟨hwf.1, fun i => ?_⟩, hcount, fun k => ?_⟩
  · constructor
    · intro hi
      have h := (hwf.2 i).mp hi
      exact ⟨getElem?_some_lt _ _ _ h, h⟩
    · intro hi
      exact (hwf.2 i).mpr hi.2
  · have e : run ops = (ops.drop k).foldl Trace.step (run (ops.take k)) := by
      unfold run
      rw [← List.foldl_append, List.take_append_drop]
    rw [e]
    exact foldl_length_mono _ _

theorem no_slot_leaked_witness :
    [Op.push 7, Op.push 8, Op.release 0, Op.push 9, Op.release 1, Op.release 1,
      Op.push 6, Op.push 5, Op.release 2].length ≤ INVALID_POOLED_INDEX ∧
    (run [Op.push 7, Op.push 8, Op.release 0, Op.push 9, Op.release 1, Op.release 1,
      Op.push 6, Op.push 5, Op.release 2]).pool = ⟨[some 9, some 6, none], [2]⟩ ∧
    (run [Op.push 7, Op.push 8, Op.release 0, Op.push 9, Op.release 1, Op.release 1,
      Op.push 6, Op.push 5, Op.release 2]).live = [(0, 9), (1, 6)] ∧
    (run [Op.push 7, Op.push 8, Op.release 0, Op.push 9, Op.release 1, Op.release 1,
      Op.push 6, Op.push 5, Op.release 2]).pool.arr.length
      = (run [Op.push 7, Op.push 8, Op.release 0, Op.push 9, Op.release 1, Op.release 1,
          Op.push 6, Op.push 5, Op.release 2]).live.length
        + (run [Op.push 7, Op.push 8, Op.release 0, Op.push 9, Op.release 1, Op.release 1,
          Op.push 6, Op.push 5, Op.release 2]).pool.freeIndices.length :=
  ⟨by decide, by decide, by decide,
    (no_slot_leaked [Op.push 7, Op.push 8, Op.release 0, Op.push 9, Op.release 1,
      Op.release 1, Op.push 6, Op.push 5, Op.release 2] (by decide)).2.1⟩

end Dar.PooledVector

/-! ## Command list: lemmas and theorems -/

namespace D3D12

theorem find_assign_self (m : List (Nat × SubresStates)) (res : Nat) (v : SubresStates) :
    find (assign m res v) res = some v := by
  induction m with
  | nil => simp [assign, find]
  | cons e m ih =>
    obtain ⟨k, w⟩ := e
    by_cases h : k = res
    · simp [assign, find, h]
    · simp [assign, find, h, ih]

theorem find_assign_ne (m : List (Nat × SubresStates)) (res r : Nat) (v : SubresStates)
    (h : r ≠ res) : find (assign m res v) r = find m r := by
  induction m with
  | nil => simp [assign, find, Ne.symm h]
  | cons e m ih =>
    obtain ⟨k, w⟩ := e
    by_cases h1 : k = res
    · subst h1
      simp [assign, find, Ne.symm h]
    · by_cases h2 : k = r
      · subst h2
        simp [assign, find, h1]
      · simp [assign, find, h1, h2, ih]

theorem assign_find_self (m : List (Nat × SubresStates)) (res : Nat) (v : SubresStates)
    (h : find m res = some v) : assign m res v = m := by
  induction m with
  | nil => simp [find] at h
  | cons e m ih =>
    obtain ⟨k, w⟩ := e
    by_cases h1 : k = res
    · simp [find, h1] at h
      simp [assign, h1, h]
    · simp [find, h1] at h
      simp [assign, h1, ih h]

theorem getD_of_getElem? (l : SubresStates) (l2 : SubresStates) (i : Nat)
    (h : l[i]? = l2[i]?) : l.getD i 0 = l2.getD i 0 := by
  rw [List.getD_eq_getElem?_getD, List.getD_eq_getElem?_getD, h]

/-- The first-encounter loop after `k` iterations. -/
theorem first_loop_aux (res stateAfter sel : Nat) (st : SubresStates)
    (pend : List PendingResourceBarrier) (cmds : List ResourceBarrier) (k : Nat)
    (hk : k ≤ st.length) :
    ((List.range k).foldl (firstBody res stateAfter sel) ⟨st, pend, cmds⟩).states.length
      = st.length ∧
    (∀ i, ((List.range k).foldl (firstBody res stateAfter sel) ⟨st, pend, cmds⟩).states[i]?
      = if i < k then some (if covers sel i then stateAfter else UNKNOWN_STATE) else st[i]?) ∧
    ((List.range k).foldl (firstBody res stateAfter sel) ⟨st, pend, cmds⟩).pendingBarriers
      = pend ++ List.replicate k ⟨res, stateAfter, sel⟩ ∧
    ((List.range k).foldl (firstBody res stateAfter sel) ⟨st, pend, cmds⟩).cmdList = cmds := by
  induction k with
  | zero => simp
  | succ k ih =>
    obtain ⟨h1, h2, h3, h4⟩ := ih (by omega)
    rw [List.range_succ, List.foldl_append, List.foldl_cons, List.foldl_nil]
    generalize (List.range k).foldl (firstBody res stateAfter sel) ⟨st, pend, cmds⟩ = s
      at h1 h2 h3 h4
    have hklt : k < s.states.length := by omega
    have key : firstBody res stateAfter sel s k =
        ⟨s.states.set k (if covers sel k then stateAfter else UNKNOWN_STATE),
          s.pendingBarriers ++ [⟨res, stateAfter, sel⟩], s.cmdList⟩ := by
      unfold firstBody pushPendingBarrier covers
      by_cases ha : sel = D3D12_RESOURCE_BARRIER_ALL_SUBRESOURCES
      · simp [ha]
      · by_cases hb : k = sel
        · subst hb
          simp [ha]
        · have hb2 : ¬ sel = k := fun h => hb h.symm
          simp [ha, hb, hb2]
    rw [key]
    refine ⟨?_, ?_, ?_, h4⟩
    · simp [h1]
    · intro i
      show (s.states.set k _)[i]? = _
      rw [List.getElem?_set]
      by_cases hik : k = i
      · subst hik
        simp [hklt]
      · rw [if_neg hik, h2 i]
        have : (i < k + 1) ↔ (i < k) := by omega
        simp only [this]
    · show s.pendingBarriers ++ [_] = _
      rw [h3, List.append_assoc, List.replicate_succ']

/-- One iteration of the loop over a known resource, by cases on `states[i]`. -/
theorem seenBody_eq (res stateAfter sel : Nat) (s : LoopState) (i : Nat) :
    seenBody res stateAfter sel s i =
      if covers sel i = true ∧ s.states.getD i 0 ≠ stateAfter then
        if s.states.getD i 0 = UNKNOWN_STATE then
          ⟨s.states.set i stateAfter, s.pendingBarriers ++ [⟨res, stateAfter, sel⟩], s.cmdList⟩
        else
          ⟨s.states.set i stateAfter, s.pendingBarriers,
            s.cmdList ++ [⟨res, s.states.getD i 0, stateAfter, sel⟩]⟩
      else s := by
  unfold seenBody pushPendingBarrierIf pushPendingBarrier covers
  by_cases ha : sel ≠ D3D12_RESOURCE_BARRIER_ALL_SUBRESOURCES ∧ sel ≠ i
  · have : ¬ (sel = D3D12_RESOURCE_BARRIER_ALL_SUBRESOURCES ∨ sel = i) := by
      rintro (h | h)
      · exact ha.1 h
      · exact ha.2 h
    simp [-List.getD_eq_getElem?_getD, ha, this]
  · have hc : sel = D3D12_RESOURCE_BARRIER_ALL_SUBRESOURCES ∨ sel = i := by
      by_cases h1 : sel = D3D12_RESOURCE_BARRIER_ALL_SUBRESOURCES
      · exact Or.inl h1
      · by_cases h2 : sel = i
        · exact Or.inr h2
        · exact absurd ⟨h1, h2⟩ ha
    rw [if_neg ha]
    by_cases hb : s.states.getD i 0 = stateAfter
    · simp [-List.getD_eq_getElem?_getD, hb]
    · by_cases hu : s.states.getD i 0 = UNKNOWN_STATE
      · simp [-List.getD_eq_getElem?_getD, hb, hu, hc]
      · simp [-List.getD_eq_getElem?_getD, hb, hu, hc]

/-- The loop over a known resource after `k` iterations. -/
theorem seen_loop_aux (res stateAfter sel : Nat) (st : SubresStates)
    (pend : List PendingResourceBarrier) (cmds : List ResourceBarrier) (k : Nat)
    (hk : k ≤ st.length) :
    ((List.range k).foldl (seenBody res stateAfter sel) ⟨st, pend, cmds⟩).states.length
      = st.length ∧
    (∀ i, ((List.range k).foldl (seenBody res stateAfter sel) ⟨st, pend, cmds⟩).states[i]?
      = if i < k ∧ covers sel i = true then some stateAfter else st[i]?) ∧
    ((List.range k).foldl (seenBody res stateAfter sel) ⟨st, pend, cmds⟩).pendingBarriers
      = pend ++ seenPending res stateAfter sel st k ∧
    ((List.range k).foldl (seenBody res stateAfter sel) ⟨st, pend, cmds⟩).cmdList
      = cmds ++ seenBarriers res stateAfter sel st k := by
  induction k with
  | zero => simp [seenPending, seenBarriers]
  | succ k ih =>
    obtain ⟨h1, h2, h3, h4⟩ := ih (by omega)
    rw [List.range_succ, List.foldl_append, List.foldl_cons, List.foldl_nil]
    generalize (List.range k).foldl (seenBody res stateAfter sel) ⟨st, pend, cmds⟩ = s
      at h1 h2 h3 h4
    have hklt : k < s.states.length := by omega
    have hkst : k < st.length := by omega
    have hget : s.states.getD k 0 = st.getD k 0 := by
      apply getD_of_getElem?
      rw [h2 k]
      simp
    have hstk : st[k]? = some (st.getD k 0) := by
      rw [List.getD_eq_getElem?_getD, List.getElem?_eq_getElem hkst]
      rfl
    have hP : seenPending res stateAfter sel st (k + 1) =
        seenPending res stateAfter sel st k ++
          (if deferredAt stateAfter sel st k then [⟨res, stateAfter, sel⟩] else []) := by
      unfold seenPending
      rw [List.range_succ, List.filter_append, List.map_append]
      by_cases hd : deferredAt stateAfter sel st k = true
      · simp [hd]
      · simp [hd]
    have hB : seenBarriers res stateAfter sel st (k + 1) =
        seenBarriers res stateAfter sel st k ++
          (if immediateAt stateAfter sel st k then [⟨res, st.getD k 0, stateAfter, sel⟩]
            else []) := by
      unfold seenBarriers
      rw [List.range_succ, List.filter_append, List.map_append]
      by_cases hd : immediateAt stateAfter sel st k = true
      · simp [hd]
      · simp [hd]
    rw [seenBody_eq, hget, hP, hB]
    have hiff : ∀ i, i ≠ k → ((i < k + 1 ∧ covers sel i = true) ↔ (i < k ∧ covers sel i = true)) := by
      intro i hi
      constructor
      · rintro ⟨a, b⟩
        exact ⟨by omega, b⟩
      · rintro ⟨a, b⟩
        exact ⟨by omega, b⟩
    by_cases hc : covers sel k = true ∧ st.getD k 0 ≠ stateAfter
    · rw [if_pos hc]
      by_cases hu : st.getD k 0 = UNKNOWN_STATE
      · rw [if_pos hu]
        have hne : UNKNOWN_STATE ≠ stateAfter := hu ▸ hc.2
        have hd : deferredAt stateAfter sel st k = true := by
          simp [-List.getD_eq_getElem?_getD, deferredAt, hc.1, hu, hne]
        have hi : immediateAt stateAfter sel st k = false := by
          simp [-List.getD_eq_getElem?_getD, immediateAt, hu]
        rw [hd, hi]
        refine ⟨by simp [h1], ?_, ?_, ?_⟩
        · intro i
          show (s.states.set k stateAfter)[i]? = _
          rw [List.getElem?_set]
          by_cases hik : k = i
          · subst hik
            simp [hklt, hc.1]
          · rw [if_neg hik, h2 i]
            simp only [hiff i (Ne.symm hik)]
        · show s.pendingBarriers ++ [_] = _
          rw [h3, List.append_assoc]
          rfl
        · show s.cmdList = _
          rw [h4]
          simp
      · rw [if_neg hu]
        have hd : deferredAt stateAfter sel st k = false := by
          simp [-List.getD_eq_getElem?_getD, deferredAt, hu]
        have hi : immediateAt stateAfter sel st k = true := by
          simp [-List.getD_eq_getElem?_getD, immediateAt, hc.1, hc.2, hu]
        rw [hd, hi]
        refine ⟨by simp [h1], ?_, ?_, ?_⟩
        · intro i
          show (s.states.set k stateAfter)[i]? = _
          rw [List.getElem?_set]
          by_cases hik : k = i
          · subst hik
            simp [hklt, hc.1]
          · rw [if_neg hik, h2 i]
            simp only [hiff i (Ne.symm hik)]
        · show s.pendingBarriers = _
          rw [h3]
          simp
        · show s.cmdList ++ [_] = _
          rw [h4, List.append_assoc]
          rfl
    · rw [if_neg hc]
      have hd : deferredAt stateAfter sel st k = false := by
        unfold deferredAt
        by_cases hcv : covers sel k = true
        · have : st.getD k 0 = stateAfter := by
            by_contra hne
            exact hc ⟨hcv, hne⟩
          simp [-List.getD_eq_getElem?_getD, this]
        · simp [hcv]
      have hi : immediateAt stateAfter sel st k = false := by
        unfold immediateAt
        by_cases hcv : covers sel k = true
        · have : st.getD k 0 = stateAfter := by
            by_contra hne
            exact hc ⟨hcv, hne⟩
          simp [-List.getD_eq_getElem?_getD, this]
        · simp [hcv]
      rw [hd, hi]
      refine ⟨h1, ?_, by simp [h3], by simp [h4]⟩
      intro i
      rw [h2 i]
      by_cases hik : i = k
      · subst hik
        by_cases hcv : covers sel i = true
        · have : st.getD i 0 = stateAfter := by
            by_contra hne
            exact hc ⟨hcv, hne⟩
          rw [if_neg (fun h => absurd h.1 (Nat.lt_irrefl _)), if_pos ⟨Nat.lt_succ_self _, hcv⟩,
            hstk, this]
        · simp [hcv]
      · simp only [hiff i hik]

theorem getElem?_firstStates (n stateAfter sel i : Nat) :
    (firstStates n stateAfter sel)[i]? =
      if i < n then some (if covers sel i then stateAfter else UNKNOWN_STATE) else none := by
  unfold firstStates
  rw [List.getElem?_map]
  by_cases h : i < n
  · rw [List.getElem?_range h, if_pos h]
    rfl
  · rw [List.getElem?_eq_none (by simpa using h), if_neg h]
    rfl

theorem length_firstStates (n stateAfter sel : Nat) :
    (firstStates n stateAfter sel).length = n := by
  simp [firstStates]

theorem getElem?_seenStates (stateAfter sel : Nat) (st : SubresStates) (i : Nat) :
    (seenStates stateAfter sel st)[i]? =
      if i < st.length ∧ covers sel i = true then some stateAfter else st[i]? := by
  unfold seenStates
  rw [List.getElem?_map]
  by_cases h : i < st.length
  · rw [List.getElem?_range h]
    by_cases hc : covers sel i = true
    · rw [if_pos ⟨h, hc⟩]
      simp [hc]
    · rw [if_neg (fun hh => hc hh.2)]
      simp [hc, List.getElem?_eq_getElem h]
  · rw [List.getElem?_eq_none (by simpa using h), if_neg (fun hh => h hh.1),
      List.getElem?_eq_none (by simpa using h)]
    rfl

theorem length_seenStates (stateAfter sel : Nat) (st : SubresStates) :
    (seenStates stateAfter sel st).length = st.length := by
  simp [seenStates]

/-- The call on a valid recorder that has no entry for the resource. -/
theorem transition_first (cnt : Nat → Nat) (c : CommandList) (r stateAfter sel : Nat)
    (hv : c.valid = true) (hf : find c.lastStates r = none) :
    transition cnt c r stateAfter sel =
      { valid := true
        lastStates := assign c.lastStates r (firstStates (cnt r) stateAfter sel)
        pendingBarriers := c.pendingBarriers ++ List.replicate (cnt r) ⟨r, stateAfter, sel⟩
        cmdList := c.cmdList } := by
  obtain ⟨h1, h2, h3, h4⟩ := first_loop_aux r stateAfter sel (List.replicate (cnt r) 0)
    c.pendingBarriers c.cmdList (List.replicate (cnt r) 0).length (Nat.le_refl _)
  have hs : ((List.range (List.replicate (cnt r) 0).length).foldl
      (firstBody r stateAfter sel) ⟨List.replicate (cnt r) 0, c.pendingBarriers, c.cmdList⟩).states
      = firstStates (cnt r) stateAfter sel := by
    apply List.ext_getElem?
    intro i
    rw [h2 i, getElem?_firstStates, List.length_replicate]
    by_cases h : i < cnt r
    · rw [if_pos h, if_pos h]
    · rw [if_neg h, if_neg h, List.getElem?_eq_none (by simpa using h)]
  unfold transition
  rw [if_neg (by simp [hv])]
  simp only [hf]
  rw [hs, h3, h4, List.length_replicate, hv]

/-- The call on a valid recorder that already has the state vector `st` for the
resource. -/
theorem transition_seen (cnt : Nat → Nat) (c : CommandList) (r stateAfter sel : Nat)
    (st : SubresStates) (hv : c.valid = true) (hf : find c.lastStates r = some st) :
    transition cnt c r stateAfter sel =
      { valid := true
        lastStates := assign c.lastStates r (seenStates stateAfter sel st)
        pendingBarriers := c.pendingBarriers ++ seenPending r stateAfter sel st st.length
        cmdList := c.cmdList ++ seenBarriers r stateAfter sel st st.length } := by
  obtain ⟨h1, h2, h3, h4⟩ := seen_loop_aux r stateAfter sel st
    c.pendingBarriers c.cmdList st.length (Nat.le_refl _)
  have hs : ((List.range st.length).foldl
      (seenBody r stateAfter sel) ⟨st, c.pendingBarriers, c.cmdList⟩).states
      = seenStates stateAfter sel st := by
    apply List.ext_getElem?
    intro i
    rw [h2 i, getElem?_seenStates]
  unfold transition
  rw [if_neg (by simp [hv])]
  simp only [hf]
  rw [hs, h3, h4, hv]

theorem getElem?_eq_some_getD (v : SubresStates) (i : Nat) (h : i < v.length) :
    v[i]? = some (v.getD i 0) := by
  rw [List.getD_eq_getElem?_getD, List.getElem?_eq_getElem h]
  rfl

/-- When every covered subresource already is in `stateAfter`, the loop over a known
resource changes nothing. -/
theorem seen_noop (r stateAfter sel : Nat) (v : SubresStates)
    (h : ∀ i, i < v.length → covers sel i = true → v.getD i 0 = stateAfter) :
    seenStates stateAfter sel v = v ∧ seenPending r stateAfter sel v v.length = [] ∧
    seenBarriers r stateAfter sel v v.length = [] := by
  refine ⟨?_, ?_, ?_⟩
  · apply List.ext_getElem?
    intro i
    rw [getElem?_seenStates]
    by_cases hc : i < v.length ∧ covers sel i = true
    · rw [if_pos hc, getElem?_eq_some_getD v i hc.1, h i hc.1 hc.2]
    · rw [if_neg hc]
  · unfold seenPending
    rw [List.map_eq_nil_iff, List.filter_eq_nil_iff]
    intro i hi hd
    rw [List.mem_range] at hi
    unfold deferredAt at hd
    by_cases hc : covers sel i = true
    · have := h i hi hc
      simp [-List.getD_eq_getElem?_getD, this] at hd
    · simp [-List.getD_eq_getElem?_getD, hc] at hd
  · unfold seenBarriers
    rw [List.map_eq_nil_iff, List.filter_eq_nil_iff]
    intro i hi hd
    rw [List.mem_range] at hi
    unfold immediateAt at hd
    by_cases hc : covers sel i = true
    · have := h i hi hc
      simp [-List.getD_eq_getElem?_getD, this] at hd
    · simp [-List.getD_eq_getElem?_getD, hc] at hd

theorem covered_firstStates (n stateAfter sel i : Nat)
    (hi : i < (firstStates n stateAfter sel).length) (hc : covers sel i = true) :
    (firstStates n stateAfter sel).getD i 0 = stateAfter := by
  rw [length_firstStates] at hi
  rw [List.getD_eq_getElem?_getD, getElem?_firstStates, if_pos hi, if_pos hc]
  rfl

theorem covered_seenStates (stateAfter sel : Nat) (st : SubresStates) (i : Nat)
    (hi : i < (seenStates stateAfter sel st).length) (hc : covers sel i = true) :
    (seenStates stateAfter sel st).getD i 0 = stateAfter := by
  rw [length_seenStates] at hi
  rw [List.getD_eq_getElem?_getD, getElem?_seenStates, if_pos ⟨hi, hc⟩]
  rfl

/-- C6: on a valid recorder whose local table has no entry for `r`,
`transition(r, stateAfter, selector)` creates a state vector for `r` whose length is the
subresource count reported for `r`; every entry covered by the selector (all entries for
the wildcard, entry `k` for the single index `k`) is `stateAfter` and every other entry is
`UNKNOWN_STATE`. -/
theorem first_observation_state_vector (cnt : Nat → Nat) (c : CommandList)
    (r stateAfter sel : Nat) (hv : c.valid = true) (hf : find c.lastStates r = none) :
    ∃ v, find (transition cnt c r stateAfter sel).lastStates r = some v ∧
      v.length = cnt r ∧
      ∀ i, i < cnt r →
        v[i]? = some (if sel = D3D12_RESOURCE_BARRIER_ALL_SUBRESOURCES ∨ sel = i
          then stateAfter else UNKNOWN_STATE) := by
  refine ⟨firstStates (cnt r) stateAfter sel, ?_, length_firstStates _ _ _, ?_⟩
  · rw [transition_first cnt c r stateAfter sel hv hf]
    exact find_assign_self _ _ _
  · intro i hi
    rw [getElem?_firstStates, if_pos hi]
    unfold covers
    by_cases h : sel = D3D12_RESOURCE_BARRIER_ALL_SUBRESOURCES ∨ sel = i
    · simp [h]
    · simp [h]

theorem first_observation_state_vector_witness :
    fresh.valid = true ∧ find fresh.lastStates 5 = none ∧
    ∃ v, find (transition (fun _ => 3) fresh 5 4 1).lastStates 5 = some v ∧
      v.length = (fun _ => 3) 5 ∧
      ∀ i, i < (fun _ => 3) 5 →
        v[i]? = some (if 1 = D3D12_RESOURCE_BARRIER_ALL_SUBRESOURCES ∨ 1 = i
          then 4 else UNKNOWN_STATE) :=
  ⟨rfl, rfl, first_observation_state_vector (fun _ => 3) fresh 5 4 1 rfl rfl⟩

/-- C7, single index on a resource with two subresources: on a fresh valid recorder, for a resource with two
subresources, `transition(r, stateAfter, 0)` leaves the state vector
`[stateAfter, UNKNOWN_STATE]` and appends two pending barriers, both for subresource 0:
the second one is appended while the loop visits subresource 1, whose state it sets to
`UNKNOWN_STATE`. -/
theorem first_observation_pending_single_index :
    (transition (fun _ => 2) fresh 5 3 0).lastStates = [(5, [3, UNKNOWN_STATE])] ∧
    (transition (fun _ => 2) fresh 5 3 0).pendingBarriers = [⟨5, 3, 0⟩, ⟨5, 3, 0⟩] ∧
    (transition (fun _ => 2) fresh 5 3 0).pendingBarriers ≠ [⟨5, 3, 0⟩] := by
  decide

/-- C8, wildcard on a resource with two subresources: a resource with two subresources, both in the
known state 3 after a wildcard transition; the wildcard transition to state 4 records two
barriers that both name `D3D12_RESOURCE_BARRIER_ALL_SUBRESOURCES`, not one barrier for
subresource 0 and one for subresource 1. -/
theorem seen_known_state_wildcard_barriers :
    (transition (fun _ => 2) fresh 5 3 D3D12_RESOURCE_BARRIER_ALL_SUBRESOURCES).lastStates
      = [(5, [3, 3])] ∧
    (transition (fun _ => 2)
      (transition (fun _ => 2) fresh 5 3 D3D12_RESOURCE_BARRIER_ALL_SUBRESOURCES)
      5 4 D3D12_RESOURCE_BARRIER_ALL_SUBRESOURCES).cmdList
      = [⟨5, 3, 4, D3D12_RESOURCE_BARRIER_ALL_SUBRESOURCES⟩,
         ⟨5, 3, 4, D3D12_RESOURCE_BARRIER_ALL_SUBRESOURCES⟩] ∧
    (transition (fun _ => 2)
      (transition (fun _ => 2) fresh 5 3 D3D12_RESOURCE_BARRIER_ALL_SUBRESOURCES)
      5 4 D3D12_RESOURCE_BARRIER_ALL_SUBRESOURCES).cmdList
      ≠ [⟨5, 3, 4, 0⟩, ⟨5, 3, 4, 1⟩] := by
  decide

theorem filter_range_single (p : Nat → Bool) (k n : Nat) (h : ∀ i, p i = true → i = k) :
    (List.range n).filter p = if k < n ∧ p k = true then [k] else [] := by
  induction n with
  | zero => simp
  | succ n ih =>
    rw [List.range_succ, List.filter_append, ih]
    by_cases hp : p n = true
    · have hn : n = k := h n hp
      subst hn
      simp [hp]
    · by_cases hk : k < n ∧ p k = true
      · have : k < n + 1 ∧ p k = true := ⟨by omega, hk.2⟩
        simp [hp, hk, this]
      · have : ¬ (k < n + 1 ∧ p k = true) := by
          rintro ⟨h1, h2⟩
          by_cases e : k = n
          · subst e
            exact hp h2
          · exact hk ⟨by omega, h2⟩
        simp [hp, hk, this]

/-- With a single-index selector `k` on a known resource whose subresource `k` is in a
known state different from `stateAfter`, exactly one barrier
`{r, k, before = st[k], after = stateAfter}` is recorded, no pending barrier is appended
and the local state of `k` becomes `stateAfter`. -/
theorem transition_seen_single_known (cnt : Nat → Nat) (c : CommandList)
    (r stateAfter k : Nat) (st : SubresStates) (hv : c.valid = true)
    (hf : find c.lastStates r = some st)
    (hk : k ≠ D3D12_RESOURCE_BARRIER_ALL_SUBRESOURCES) (hlt : k < st.length)
    (hne : st.getD k 0 ≠ stateAfter) (hu : st.getD k 0 ≠ UNKNOWN_STATE) :
    (transition cnt c r stateAfter k).cmdList
      = c.cmdList ++ [⟨r, st.getD k 0, stateAfter, k⟩] ∧
    (transition cnt c r stateAfter k).pendingBarriers = c.pendingBarriers ∧
    ∃ v, find (transition cnt c r stateAfter k).lastStates r = some v ∧
      v[k]? = some stateAfter := by
  have hcov : ∀ i, covers k i = true → i = k := by
    intro i hi
    unfold covers at hi
    rcases of_decide_eq_true hi with h | h
    · exact absurd h hk
    · exact h.symm
  have hck : covers k k = true := by simp [covers]
  rw [transition_seen cnt c r stateAfter k st hv hf]
  refine ⟨?_, ?_, seenStates stateAfter k st, find_assign_self _ _ _, ?_⟩
  · show c.cmdList ++ seenBarriers r stateAfter k st st.length = _
    unfold seenBarriers
    rw [filter_range_single _ k st.length]
    · have : immediateAt stateAfter k st k = true := by
        simp [-List.getD_eq_getElem?_getD, immediateAt, hck, hne, hu]
      simp [-List.getD_eq_getElem?_getD, hlt, this]
    · intro i hi
      apply hcov
      unfold immediateAt at hi
      simp only [Bool.and_eq_true] at hi
      exact hi.1.1
  · show c.pendingBarriers ++ seenPending r stateAfter k st st.length = _
    unfold seenPending
    rw [filter_range_single _ k st.length]
    · have : deferredAt stateAfter k st k = false := by
        simp [-List.getD_eq_getElem?_getD, deferredAt, hu]
      simp [-List.getD_eq_getElem?_getD, this]
    · intro i hi
      apply hcov
      unfold deferredAt at hi
      simp only [Bool.and_eq_true] at hi
      exact hi.1.1
  · rw [getElem?_seenStates, if_pos ⟨hlt, hck⟩]

/-- Closed form of one call on a valid recorder that already has the state vector `st`
for `r`, for `stateAfter` other than the sentinel: the loop appends one pending barrier
with `stateAfter` in each iteration of a covered subresource whose local state is
`UNKNOWN_STATE` (and no other pending barrier), and records one barrier in each iteration
of a covered subresource whose local state is known and differs. Every barrier, pending
or recorded, carries the selector `sel` of the call, not the index of the iteration. -/
theorem unknown_state_defers (cnt : Nat → Nat) (c : CommandList) (r stateAfter sel : Nat)
    (st : SubresStates) (hv : c.valid = true) (hf : find c.lastStates r = some st)
    (hS : stateAfter ≠ UNKNOWN_STATE) :
    (transition cnt c r stateAfter sel).pendingBarriers =
      c.pendingBarriers ++
        ((List.range st.length).filter
          (fun i => covers sel i && decide (st.getD i 0 = UNKNOWN_STATE))).map
          (fun _ => (⟨r, stateAfter, sel⟩ : PendingResourceBarrier)) ∧
    (transition cnt c r stateAfter sel).cmdList =
      c.cmdList ++
        ((List.range st.length).filter
          (fun i => covers sel i && decide (st.getD i 0 ≠ stateAfter) &&
            decide (st.getD i 0 ≠ UNKNOWN_STATE))).map
          (fun i => (⟨r, st.getD i 0, stateAfter, sel⟩ : ResourceBarrier)) := by
  rw [transition_seen cnt c r stateAfter sel st hv hf]
  refine ⟨?_, rfl⟩
  show c.pendingBarriers ++ seenPending r stateAfter sel st st.length = _
  unfold seenPending
  congr 2
  apply List.filter_congr
  intro i _
  unfold deferredAt
  by_cases hu : st.getD i 0 = UNKNOWN_STATE
  · have hne : UNKNOWN_STATE ≠ stateAfter := fun h => hS h.symm
    simp [-List.getD_eq_getElem?_getD, hu, hne]
  · simp [-List.getD_eq_getElem?_getD, hu]

theorem unknown_state_defers_witness :
    (transition (fun _ => 2) fresh 5 3 0).valid = true ∧
    find (transition (fun _ => 2) fresh 5 3 0).lastStates 5 = some [3, UNKNOWN_STATE] ∧
    4 ≠ UNKNOWN_STATE ∧
    (transition (fun _ => 2) (transition (fun _ => 2) fresh 5 3 0) 5 4 1).pendingBarriers =
      (transition (fun _ => 2) fresh 5 3 0).pendingBarriers ++ [⟨5, 4, 1⟩] ∧
    (transition (fun _ => 2) (transition (fun _ => 2) fresh 5 3 0) 5 4 1).cmdList =
      (transition (fun _ => 2) fresh 5 3 0).cmdList :=
  ⟨by decide, by decide, by decide,
    (unknown_state_defers (fun _ => 2) (transition (fun _ => 2) fresh 5 3 0) 5 4 1
      [3, UNKNOWN_STATE] (by decide) (by decide) (by decide)).1.trans (by decide),
    (unknown_state_defers (fun _ => 2) (transition (fun _ => 2) fresh 5 3 0) 5 4 1
      [3, UNKNOWN_STATE] (by decide) (by decide) (by decide)).2.trans (by decide)⟩

/-- C9, wildcard over a partly known resource: after `transition(r, 3, 0)` on a fresh
recorder the local vector of `r` (two subresources) is `[3, UNKNOWN_STATE]`. The wildcard
transition to state 4 matches subresource 1, whose local state is the sentinel; it appends
the pending barrier `{r, after 4, ALL_SUBRESOURCES}`, and it records the barrier
`{r, ALL_SUBRESOURCES, before 3, after 4}`: a barrier recorded at once whose subresource
field covers subresource 1, with a before-state that is not the local state of
subresource 1. -/
theorem unknown_subresource_immediate_barrier :
    find (transition (fun _ => 2) fresh 5 3 0).lastStates 5 = some [3, UNKNOWN_STATE] ∧
    covers D3D12_RESOURCE_BARRIER_ALL_SUBRESOURCES 1 = true ∧
    ([3, UNKNOWN_STATE] : SubresStates).getD 1 0 = UNKNOWN_STATE ∧
    (4 : Nat) ≠ UNKNOWN_STATE ∧
    (transition (fun _ => 2) (transition (fun _ => 2) fresh 5 3 0) 5 4
      D3D12_RESOURCE_BARRIER_ALL_SUBRESOURCES).pendingBarriers
      = (transition (fun _ => 2) fresh 5 3 0).pendingBarriers
        ++ [⟨5, 4, D3D12_RESOURCE_BARRIER_ALL_SUBRESOURCES⟩] ∧
    (transition (fun _ => 2) fresh 5 3 0).cmdList = [] ∧
    (transition (fun _ => 2) (transition (fun _ => 2) fresh 5 3 0) 5 4
      D3D12_RESOURCE_BARRIER_ALL_SUBRESOURCES).cmdList
      = [⟨5, 3, 4, D3D12_RESOURCE_BARRIER_ALL_SUBRESOURCES⟩] ∧
    (∃ b ∈ (transition (fun _ => 2) (transition (fun _ => 2) fresh 5 3 0) 5 4
        D3D12_RESOURCE_BARRIER_ALL_SUBRESOURCES).cmdList,
      covers b.subresource 1 = true) ∧
    soundFor ⟨5, 3, 4, D3D12_RESOURCE_BARRIER_ALL_SUBRESOURCES⟩ [3, UNKNOWN_STATE] = false := by
  decide

/-- A second identical call on a recorder whose vector for `r` has every covered
subresource in `stateAfter` changes nothing. -/
theorem transition_noop (cnt : Nat → Nat) (c : CommandList) (r stateAfter sel : Nat)
    (v : SubresStates) (hv : c.valid = true) (hf : find c.lastStates r = some v)
    (h : ∀ i, i < v.length → covers sel i = true → v.getD i 0 = stateAfter) :
    transition cnt c r stateAfter sel = c := by
  obtain ⟨e1, e2, e3⟩ := seen_noop r stateAfter sel v h
  rw [transition_seen cnt c r stateAfter sel v hv hf, e1, e2, e3,
    assign_find_self _ _ _ hf, List.append_nil, List.append_nil, ← hv]

/-- C10: on a valid recorder, calling `transition(resource, S, selector)` twice in a row
leaves the recorder exactly as the first call left it: the second call records no barrier,
appends no pending barrier and leaves the local table unchanged. -/
theorem transition_idempotent (cnt : Nat → Nat) (c : CommandList) (r stateAfter sel : Nat)
    (hv : c.valid = true) :
    transition cnt (transition cnt c r stateAfter sel) r stateAfter sel
      = transition cnt c r stateAfter sel := by
  cases hf : find c.lastStates r with
  | none =>
    have e := transition_first cnt c r stateAfter sel hv hf
    apply transition_noop cnt _ r stateAfter sel (firstStates (cnt r) stateAfter sel)
    · rw [e]
    · rw [e]
      exact find_assign_self _ _ _
    · intro i hi hc
      exact covered_firstStates _ _ _ _ hi hc
  | some st =>
    have e := transition_seen cnt c r stateAfter sel st hv hf
    apply transition_noop cnt _ r stateAfter sel (seenStates stateAfter sel st)
    · rw [e]
    · rw [e]
      exact find_assign_self _ _ _
    · intro i hi hc
      exact covered_seenStates _ _ _ _ hi hc

theorem transition_idempotent_witness :
    (transition (fun _ => 2) fresh 5 3 0).valid = true ∧
    transition (fun _ => 2)
      (transition (fun _ => 2) (transition (fun _ => 2) fresh 5 3 0) 5 4
        D3D12_RESOURCE_BARRIER_ALL_SUBRESOURCES) 5 4 D3D12_RESOURCE_BARRIER_ALL_SUBRESOURCES
      = transition (fun _ => 2) (transition (fun _ => 2) fresh 5 3 0) 5 4
        D3D12_RESOURCE_BARRIER_ALL_SUBRESOURCES :=
  ⟨by decide,
    transition_idempotent (fun _ => 2) (transition (fun _ => 2) fresh 5 3 0) 5 4
      D3D12_RESOURCE_BARRIER_ALL_SUBRESOURCES (by decide)⟩

/-! ### Sequences of calls -/

theorem transition_invalid (cnt : Nat → Nat) (c : CommandList) (r stateAfter sel : Nat)
    (hv : c.valid = false) : transition cnt c r stateAfter sel = c := by
  unfold transition
  rw [if_pos hv]

theorem valid_transition (cnt : Nat → Nat) (c : CommandList) (r stateAfter sel : Nat) :
    (transition cnt c r stateAfter sel).valid = c.valid := by
  cases hv : c.valid with
  | false => rw [transition_invalid cnt c r stateAfter sel hv, hv]
  | true =>
    cases hf : find c.lastStates r with
    | none => rw [transition_first cnt c r stateAfter sel hv hf]
    | some st => rw [transition_seen cnt c r stateAfter sel st hv hf]

theorem runCalls_cons (cnt : Nat → Nat) (c : CommandList) (x : Call) (xs : List Call) :
    runCalls cnt c (x :: xs) = runCalls cnt (call cnt c x) xs := rfl

theorem runCalls_append (cnt : Nat → Nat) (c : CommandList) (xs ys : List Call) :
    runCalls cnt c (xs ++ ys) = runCalls cnt (runCalls cnt c xs) ys := by
  simp [runCalls, List.foldl_append]

theorem valid_runCalls (cnt : Nat → Nat) (c : CommandList) (calls : List Call) :
    (runCalls cnt c calls).valid = c.valid := by
  induction calls generalizing c with
  | nil => rfl
  | cons x xs ih =>
    rw [runCalls_cons, ih]
    exact valid_transition cnt c _ _ _

/-- One call on a valid recorder records as many barriers as it has covered
subresources with a known, differing local state. -/
theorem call_cmdList_length (cnt : Nat → Nat) (c : CommandList) (x : Call)
    (hv : c.valid = true) :
    (call cnt c x).cmdList.length = c.cmdList.length + knownDifferingTargets c x := by
  unfold call knownDifferingTargets
  cases hf : find c.lastStates x.resource with
  | none =>
    rw [transition_first cnt c _ _ _ hv hf]
    simp
  | some st =>
    rw [transition_seen cnt c _ _ _ st hv hf]
    simp [seenBarriers]

theorem runCalls_cmdList_length (cnt : Nat → Nat) (c : CommandList) (calls : List Call)
    (hv : c.valid = true) :
    (runCalls cnt c calls).cmdList.length
      = c.cmdList.length + knownDifferingPairs cnt c calls := by
  induction calls generalizing c with
  | nil => rfl
  | cons x xs ih =>
    have hv2 : (call cnt c x).valid = true := by
      unfold call
      rw [valid_transition, hv]
    rw [runCalls_cons, ih _ hv2, call_cmdList_length cnt c x hv]
    simp only [knownDifferingPairs]
    omega

/-- A call that names a single subresource has at most one covered subresource. -/
theorem knownDifferingTargets_single (c : CommandList) (x : Call)
    (hx : x.subresourceIndex ≠ D3D12_RESOURCE_BARRIER_ALL_SUBRESOURCES) :
    knownDifferingTargets c x = if 0 < knownDifferingTargets c x then 1 else 0 := by
  unfold knownDifferingTargets
  cases find c.lastStates x.resource with
  | none => rfl
  | some st =>
    simp only
    have hle : ((List.range st.length).filter
        (immediateAt x.stateAfter x.subresourceIndex st)).length ≤ 1 := by
      rw [filter_range_single _ x.subresourceIndex st.length]
      · split <;> simp
      · intro i hi
        unfold immediateAt covers at hi
        simp only [Bool.and_eq_true] at hi
        rcases of_decide_eq_true hi.1.1 with h | h
        · exact absurd h hx
        · exact h.symm
    split <;> omega

theorem knownDifferingPairs_single (cnt : Nat → Nat) (c : CommandList) (calls : List Call)
    (h : ∀ x ∈ calls, x.subresourceIndex ≠ D3D12_RESOURCE_BARRIER_ALL_SUBRESOURCES) :
    knownDifferingPairs cnt c calls = knownDifferingCalls cnt c calls := by
  induction calls generalizing c with
  | nil => rfl
  | cons x xs ih =>
    simp only [knownDifferingPairs, knownDifferingCalls]
    rw [ih _ (fun y hy => h y (List.mem_cons_of_mem _ hy)),
      ← knownDifferingTargets_single c x (h x (List.mem_cons_self _ _))]

/-- C11 as stated fails: on a resource with two subresources, a wildcard transition to
state 3 followed by a wildcard transition to state 4 repeats no state and records two
barriers, while only one call (the second) had target subresources with a known,
differing prior state. And a call on a resource not seen before whose reported
subresource count is 0 appends no pending barrier. -/
theorem immediate_count_wildcard_mismatch :
    (find fresh.lastStates 5 = none ∧
      (transition (fun _ => 0) fresh 5 3
        D3D12_RESOURCE_BARRIER_ALL_SUBRESOURCES).pendingBarriers = []) ∧
    noRepeat (fun _ => 2) fresh
      [⟨5, 3, D3D12_RESOURCE_BARRIER_ALL_SUBRESOURCES⟩,
       ⟨5, 4, D3D12_RESOURCE_BARRIER_ALL_SUBRESOURCES⟩] = true ∧
    (runCalls (fun _ => 2) fresh
      [⟨5, 3, D3D12_RESOURCE_BARRIER_ALL_SUBRESOURCES⟩,
       ⟨5, 4, D3D12_RESOURCE_BARRIER_ALL_SUBRESOURCES⟩]).cmdList.length = 2 ∧
    knownDifferingCalls (fun _ => 2) fresh
      [⟨5, 3, D3D12_RESOURCE_BARRIER_ALL_SUBRESOURCES⟩,
       ⟨5, 4, D3D12_RESOURCE_BARRIER_ALL_SUBRESOURCES⟩] = 1 ∧
    (runCalls (fun _ => 2) fresh
      [⟨5, 3, D3D12_RESOURCE_BARRIER_ALL_SUBRESOURCES⟩,
       ⟨5, 4, D3D12_RESOURCE_BARRIER_ALL_SUBRESOURCES⟩]).cmdList.length ≠
    knownDifferingCalls (fun _ => 2) fresh
      [⟨5, 3, D3D12_RESOURCE_BARRIER_ALL_SUBRESOURCES⟩,
       ⟨5, 4, D3D12_RESOURCE_BARRIER_ALL_SUBRESOURCES⟩] := by
  decide

/-- C11, amended: for every sequence of `transition` calls on a valid fresh recorder
(whether or not a call repeats a state), the number of barriers recorded equals the number
of pairs of a call and a subresource covered by its selector that had a locally known,
differing prior state; when every call names a single subresource, this is the number of
calls whose target subresource had such a state. Every call, at any point of the sequence,
on a resource the recorder has not seen and that has at least one subresource, records no
barrier and appends a pending barrier for that resource with the requested state. -/
theorem immediate_count (cnt : Nat → Nat) (calls : List Call) :
    (runCalls cnt fresh calls).cmdList.length = knownDifferingPairs cnt fresh calls ∧
    ((∀ x ∈ calls, x.subresourceIndex ≠ D3D12_RESOURCE_BARRIER_ALL_SUBRESOURCES) →
      (runCalls cnt fresh calls).cmdList.length = knownDifferingCalls cnt fresh calls) ∧
    (∀ (pre : List Call) (x : Call),
      find (runCalls cnt fresh pre).lastStates x.resource = none → 0 < cnt x.resource →
      (call cnt (runCalls cnt fresh pre) x).cmdList = (runCalls cnt fresh pre).cmdList ∧
      ∃ b rest, (call cnt (runCalls cnt fresh pre) x).pendingBarriers
          = (runCalls cnt fresh pre).pendingBarriers ++ b :: rest ∧
        b.res = x.resource ∧ b.stateAfter = x.stateAfter) := by
  have h0 := runCalls_cmdList_length cnt fresh calls rfl
  have h1 : (runCalls cnt fresh calls).cmdList.length = knownDifferingPairs cnt fresh calls := by
    rw [h0]
    show 0 + _ = _
    omega
  refine ⟨h1, ?_, ?_⟩
  · intro hs
    rw [h1, knownDifferingPairs_single cnt fresh calls hs]
  · intro pre x hf hc
    have hv : (runCalls cnt fresh pre).valid = true := by
      rw [valid_runCalls]
      rfl
    unfold call
    rw [transition_first cnt _ _ _ _ hv hf]
    refine ⟨rfl, ⟨x.resource, x.stateAfter, x.subresourceIndex⟩,
      List.replicate (cnt x.resource - 1) ⟨x.resource, x.stateAfter, x.subresourceIndex⟩,
      ?_, rfl, rfl⟩
    show _ ++ List.replicate (cnt x.resource) _ = _
    obtain ⟨m, hm⟩ : ∃ m, cnt x.resource = m + 1 := ⟨cnt x.resource - 1, by omega⟩
    rw [hm]
    rfl

theorem immediate_count_witness :
    (∀ x ∈ ([⟨5, 3, 0⟩, ⟨5, 4, 0⟩, ⟨5, 6, 1⟩, ⟨5, 4, 0⟩, ⟨5, 7, 1⟩] : List Call),
      x.subresourceIndex ≠ D3D12_RESOURCE_BARRIER_ALL_SUBRESOURCES) ∧
    knownDifferingCalls (fun _ => 2) fresh
      [⟨5, 3, 0⟩, ⟨5, 4, 0⟩, ⟨5, 6, 1⟩, ⟨5, 4, 0⟩, ⟨5, 7, 1⟩] = 2 ∧
    (runCalls (fun _ => 2) fresh
      [⟨5, 3, 0⟩, ⟨5, 4, 0⟩, ⟨5, 6, 1⟩, ⟨5, 4, 0⟩, ⟨5, 7, 1⟩]).cmdList.length
      = knownDifferingCalls (fun _ => 2) fresh
        [⟨5, 3, 0⟩, ⟨5, 4, 0⟩, ⟨5, 6, 1⟩, ⟨5, 4, 0⟩, ⟨5, 7, 1⟩] :=
  ⟨by decide, by decide,
    (immediate_count (fun _ => 2)
      [⟨5, 3, 0⟩, ⟨5, 4, 0⟩, ⟨5, 6, 1⟩, ⟨5, 4, 0⟩, ⟨5, 7, 1⟩]).2.1 (by decide)⟩

/-- Wildcard, then a single subresource: for a resource `r` with `n` subresources, states
`X ≠ Y` with `X` not the sentinel and a single index `k < n`, on a valid fresh recorder
the wildcard transition to `X` appends `n` copies of the pending barrier
`{r, after X, ALL_SUBRESOURCES}` and records no barrier; the following transition of
subresource `k` to `Y` records exactly the barrier `{r, subresource k, before X, after Y}`
and appends no pending barrier; afterwards the local state is `Y` at `k` and `X` at every
other index. -/
theorem wildcard_then_single (cnt : Nat → Nat) (r X Y k n : Nat) (hc : cnt r = n)
    (hXY : X ≠ Y) (hX : X ≠ UNKNOWN_STATE) (hk : k < n)
    (hkw : k ≠ D3D12_RESOURCE_BARRIER_ALL_SUBRESOURCES) :
    ((transition cnt fresh r X D3D12_RESOURCE_BARRIER_ALL_SUBRESOURCES).pendingBarriers.length
        = n ∧
      (transition cnt fresh r X D3D12_RESOURCE_BARRIER_ALL_SUBRESOURCES).pendingBarriers
        = List.replicate n ⟨r, X, D3D12_RESOURCE_BARRIER_ALL_SUBRESOURCES⟩ ∧
      (transition cnt fresh r X D3D12_RESOURCE_BARRIER_ALL_SUBRESOURCES).cmdList = []) ∧
    ((transition cnt (transition cnt fresh r X D3D12_RESOURCE_BARRIER_ALL_SUBRESOURCES)
        r Y k).cmdList = [⟨r, X, Y, k⟩] ∧
      (transition cnt (transition cnt fresh r X D3D12_RESOURCE_BARRIER_ALL_SUBRESOURCES)
        r Y k).pendingBarriers
        = (transition cnt fresh r X D3D12_RESOURCE_BARRIER_ALL_SUBRESOURCES).pendingBarriers) ∧
    ∃ v, find (transition cnt (transition cnt fresh r X D3D12_RESOURCE_BARRIER_ALL_SUBRESOURCES)
        r Y k).lastStates r = some v ∧ v.length = n ∧
      ∀ i, i < n → v[i]? = some (if i = k then Y else X) := by
  have e1 := transition_first cnt fresh r X D3D12_RESOURCE_BARRIER_ALL_SUBRESOURCES rfl rfl
  rw [hc] at e1
  have hall : ∀ i, covers D3D12_RESOURCE_BARRIER_ALL_SUBRESOURCES i = true := by
    intro i
    simp [covers]
  have hf : find (transition cnt fresh r X D3D12_RESOURCE_BARRIER_ALL_SUBRESOURCES).lastStates r
      = some (firstStates n X D3D12_RESOURCE_BARRIER_ALL_SUBRESOURCES) := by
    rw [e1]
    exact find_assign_self _ _ _
  have hv : (transition cnt fresh r X D3D12_RESOURCE_BARRIER_ALL_SUBRESOURCES).valid = true := by
    rw [e1]
  have hlen : k < (firstStates n X D3D12_RESOURCE_BARRIER_ALL_SUBRESOURCES).length := by
    rw [length_firstStates]
    exact hk
  have hget : ∀ i, i < n →
      (firstStates n X D3D12_RESOURCE_BARRIER_ALL_SUBRESOURCES).getD i 0 = X := by
    intro i hi
    exact covered_firstStates n X _ i (by rw [length_firstStates]; exact hi) (hall i)
  refine ⟨?_, ?_, ?_⟩
  · rw [e1]
    refine ⟨?_, ?_, rfl⟩
    · show (([] : List PendingResourceBarrier) ++ List.replicate n _).length = n
      simp
    · show ([] : List PendingResourceBarrier) ++ List.replicate n _ = _
      simp
  · obtain ⟨h1, h2, -⟩ := transition_seen_single_known cnt _ r Y k _ hv hf hkw hlen
      (by rw [hget k hk]; exact hXY) (by rw [hget k hk]; exact hX)
    rw [hget k hk] at h1
    refine ⟨?_, h2⟩
    rw [h1, e1]
    rfl
  · rw [transition_seen cnt _ r Y k _ hv hf]
    refine ⟨_, find_assign_self _ _ _, ?_, ?_⟩
    · rw [length_seenStates, length_firstStates]
    · intro i hi
      rw [getElem?_seenStates, length_firstStates]
      have hcov : covers k i = true ↔ i = k := by
        unfold covers
        constructor
        · intro h
          rcases of_decide_eq_true h with h | h
          · exact absurd h hkw
          · exact h.symm
        · intro h
          simp [h]
      by_cases hik : i = k
      · rw [if_pos ⟨hi, hcov.mpr hik⟩, if_pos hik]
      · rw [if_neg (fun h => hik (hcov.mp h.2)), if_neg hik, getElem?_firstStates, if_pos hi,
          if_pos (hall i)]

theorem wildcard_then_single_witness :
    (fun _ => 3) 5 = 3 ∧ 7 ≠ 8 ∧ 7 ≠ UNKNOWN_STATE ∧ 1 < 3 ∧
    1 ≠ D3D12_RESOURCE_BARRIER_ALL_SUBRESOURCES ∧
    (transition (fun _ => 3) (transition (fun _ => 3) fresh 5 7
        D3D12_RESOURCE_BARRIER_ALL_SUBRESOURCES) 5 8 1).cmdList = [⟨5, 7, 8, 1⟩] ∧
    (transition (fun _ => 3) (transition (fun _ => 3) fresh 5 7
        D3D12_RESOURCE_BARRIER_ALL_SUBRESOURCES) 5 8 1).lastStates = [(5, [7, 8, 7])] :=
  ⟨rfl, by decide, by decide, by decide, by decide,
    (wildcard_then_single (fun _ => 3) 5 7 8 1 3 rfl (by decide) (by decide) (by decide)
      (by decide)).2.1.1,
    by decide⟩

/-- C12, `n = 3`, `k = 1`, `X = 7`, `Y = 8`: on a fresh recorder the wildcard transition of
`r` to 7 appends three pending barriers, each `{r, after 7, ALL_SUBRESOURCES}`; the pending
list is not `{r, 7, 0}, {r, 7, 1}, {r, 7, 2}`, and none of its barriers names subresource
0, 1 or 2. The rest of the scenario is as described: no barrier is recorded by the first
call, the second call records exactly `{r, subresource 1, before 7, after 8}` and appends
no pending barrier, and the local states are `[7, 8, 7]`. -/
theorem wildcard_pending_not_per_subresource :
    (transition (fun _ => 3) fresh 5 7 D3D12_RESOURCE_BARRIER_ALL_SUBRESOURCES).pendingBarriers
      = [⟨5, 7, D3D12_RESOURCE_BARRIER_ALL_SUBRESOURCES⟩,
         ⟨5, 7, D3D12_RESOURCE_BARRIER_ALL_SUBRESOURCES⟩,
         ⟨5, 7, D3D12_RESOURCE_BARRIER_ALL_SUBRESOURCES⟩] ∧
    (transition (fun _ => 3) fresh 5 7 D3D12_RESOURCE_BARRIER_ALL_SUBRESOURCES).pendingBarriers
      ≠ [⟨5, 7, 0⟩, ⟨5, 7, 1⟩, ⟨5, 7, 2⟩] ∧
    (∀ b ∈ (transition (fun _ => 3) fresh 5 7
        D3D12_RESOURCE_BARRIER_ALL_SUBRESOURCES).pendingBarriers,
      b.subresourceIndex ≠ 0 ∧ b.subresourceIndex ≠ 1 ∧ b.subresourceIndex ≠ 2) ∧
    (transition (fun _ => 3) fresh 5 7 D3D12_RESOURCE_BARRIER_ALL_SUBRESOURCES).cmdList = [] ∧
    (transition (fun _ => 3) (transition (fun _ => 3) fresh 5 7
        D3D12_RESOURCE_BARRIER_ALL_SUBRESOURCES) 5 8 1).cmdList = [⟨5, 7, 8, 1⟩] ∧
    (transition (fun _ => 3) (transition (fun _ => 3) fresh 5 7
        D3D12_RESOURCE_BARRIER_ALL_SUBRESOURCES) 5 8 1).pendingBarriers
      = (transition (fun _ => 3) fresh 5 7
        D3D12_RESOURCE_BARRIER_ALL_SUBRESOURCES).pendingBarriers ∧
    (transition (fun _ => 3) (transition (fun _ => 3) fresh 5 7
        D3D12_RESOURCE_BARRIER_ALL_SUBRESOURCES) 5 8 1).lastStates = [(5, [7, 8, 7])] := by
  decide

/-! ### Publishing the local states -/

theorem find_eq_none_of_not_mem (m : List (Nat × SubresStates)) (r : Nat)
    (h : r ∉ m.map Prod.fst) : find m r = none := by
  induction m with
  | nil => rfl
  | cons e m ih =>
    obtain ⟨k, v⟩ := e
    rw [List.map_cons, List.mem_cons, not_or] at h
    have hk : ¬ k = r := fun e => h.1 e.symm
    simp only [find, hk, if_false]
    exact ih h.2

theorem mem_keys_of_find (m : List (Nat × SubresStates)) (r : Nat) (st : SubresStates)
    (h : find m r = some st) : r ∈ m.map Prod.fst := by
  by_contra hc
  rw [find_eq_none_of_not_mem m r hc] at h
  cases h

/-- The writes of the inner loop of `resolveLastStates` for one entry of the table. -/
theorem resolve_entry (reg : Registry) (r : Nat) (st : SubresStates) (n : Nat) :
    ((List.range n).map (fun i => (r, st.getD i 0, i))).foldl setGlobalStateForSubres reg
      = fun r1 i1 => if r1 = r ∧ i1 < n then st.getD i1 0 else reg r1 i1 := by
  induction n with
  | zero =>
    funext r1 i1
    simp
  | succ n ih =>
    rw [List.range_succ, List.map_append, List.foldl_append, ih]
    funext r1 i1
    simp only [List.map_cons, List.map_nil, List.foldl_cons, List.foldl_nil,
      setGlobalStateForSubres]
    by_cases h1 : r1 = r
    · by_cases h2 : i1 = n
      · subst h2
        simp [-List.getD_eq_getElem?_getD, h1]
      · by_cases h3 : i1 < n
        · have : i1 < n + 1 := by omega
          simp [-List.getD_eq_getElem?_getD, h1, h2, h3, this]
        · have : ¬ i1 < n + 1 := by omega
          simp [-List.getD_eq_getElem?_getD, h1, h2, h3, this]
    · simp [-List.getD_eq_getElem?_getD, h1]

/-- Closed form of `resolveLastStates` on a table without repeated keys. -/
theorem resolve_closed (m : List (Nat × SubresStates)) (reg : Registry)
    (hnd : (m.map Prod.fst).Nodup) (r i : Nat) :
    (resolveWrites m).foldl setGlobalStateForSubres reg r i =
      match find m r with
      | some st => if i < st.length then st.getD i 0 else reg r i
      | none => reg r i := by
  induction m generalizing reg with
  | nil => rfl
  | cons e m ih =>
    obtain ⟨k, v⟩ := e
    rw [List.map_cons, List.nodup_cons] at hnd
    simp only [resolveWrites, List.foldl_append]
    rw [ih _ hnd.2, resolve_entry]
    by_cases hk : k = r
    · subst hk
      rw [find_eq_none_of_not_mem m k hnd.1]
      simp [-List.getD_eq_getElem?_getD, find]
    · have hk2 : ¬ r = k := fun e => hk e.symm
      simp only [find, hk, hk2, if_false, false_and]

theorem keys_assign (m : List (Nat × SubresStates)) (r : Nat) (v : SubresStates) :
    (assign m r v).map Prod.fst
      = if r ∈ m.map Prod.fst then m.map Prod.fst else m.map Prod.fst ++ [r] := by
  induction m with
  | nil => simp [assign]
  | cons e m ih =>
    obtain ⟨k, w⟩ := e
    by_cases hk : k = r
    · simp [assign, hk]
    · have hk2 : ¬ r = k := fun e => hk e.symm
      simp only [assign, hk, if_false, List.map_cons, ih, List.mem_cons, hk2, false_or]
      split <;> simp

theorem nodup_keys_assign (m : List (Nat × SubresStates)) (r : Nat) (v : SubresStates)
    (h : (m.map Prod.fst).Nodup) : ((assign m r v).map Prod.fst).Nodup := by
  rw [keys_assign]
  split
  · exact h
  · rename_i hr
    rw [List.nodup_append]
    refine ⟨h, List.nodup_singleton _, ?_⟩
    intro a ha hb
    rw [List.mem_singleton] at hb
    subst hb
    exact hr ha

/-- The local table stays a map (no key twice) under `transition`. -/
theorem nodup_keys_transition (cnt : Nat → Nat) (c : CommandList) (r stateAfter sel : Nat)
    (h : (c.lastStates.map Prod.fst).Nodup) :
    ((transition cnt c r stateAfter sel).lastStates.map Prod.fst).Nodup := by
  cases hv : c.valid with
  | false => rw [transition_invalid cnt c r stateAfter sel hv]; exact h
  | true =>
    cases hf : find c.lastStates r with
    | none =>
      rw [transition_first cnt c r stateAfter sel hv hf]
      exact nodup_keys_assign _ _ _ h
    | some st =>
      rw [transition_seen cnt c r stateAfter sel st hv hf]
      exact nodup_keys_assign _ _ _ h

theorem nodup_keys_runCalls (cnt : Nat → Nat) (c : CommandList) (calls : List Call)
    (h : (c.lastStates.map Prod.fst).Nodup) :
    ((runCalls cnt c calls).lastStates.map Prod.fst).Nodup := by
  induction calls generalizing c with
  | nil => exact h
  | cons x xs ih =>
    rw [runCalls_cons]
    exact ih _ (nodup_keys_transition cnt c _ _ _ h)

/-- C13: with the registry a map in which `setGlobalStateForSubres` overwrites, after
`resolveLastStates()` on a recorder whose local table is a map (no resource twice, as in
every table built by `transition`), the registry state of `(r, i)` is the local state of
subresource `i` of `r`, for every resource `r` of the local table and every index `i` of
its state vector; the registry entries of every resource outside the local table are
unchanged. -/
theorem resolve_round_trip (reg : Registry) (c : CommandList)
    (hnd : (c.lastStates.map Prod.fst).Nodup) :
    (∀ r st, find c.lastStates r = some st → ∀ i, i < st.length →
      st[i]? = some (getState (resolveLastStates reg c) r i)) ∧
    (∀ r, find c.lastStates r = none → ∀ i,
      getState (resolveLastStates reg c) r i = getState reg r i) := by
  refine ⟨?_, ?_⟩
  · intro r st hf i hi
    unfold getState resolveLastStates
    rw [resolve_closed _ _ hnd, hf]
    simp only [hi, if_true]
    exact getElem?_eq_some_getD st i hi
  · intro r hf i
    unfold getState resolveLastStates
    rw [resolve_closed _ _ hnd, hf]

theorem resolve_round_trip_witness :
    ((runCalls (fun r => r) fresh [⟨2, 7, 0⟩, ⟨3, 8, D3D12_RESOURCE_BARRIER_ALL_SUBRESOURCES⟩,
        ⟨2, 9, 1⟩]).lastStates.map Prod.fst).Nodup ∧
    find (runCalls (fun r => r) fresh [⟨2, 7, 0⟩, ⟨3, 8, D3D12_RESOURCE_BARRIER_ALL_SUBRESOURCES⟩,
        ⟨2, 9, 1⟩]).lastStates 2 = some [7, 9] ∧
    ([7, 9] : SubresStates)[1]? = some (getState (resolveLastStates (fun _ _ => 1)
      (runCalls (fun r => r) fresh [⟨2, 7, 0⟩, ⟨3, 8, D3D12_RESOURCE_BARRIER_ALL_SUBRESOURCES⟩,
        ⟨2, 9, 1⟩])) 2 1) :=
  ⟨by decide, by decide,
    (resolve_round_trip (fun _ _ => 1)
      (runCalls (fun r => r) fresh [⟨2, 7, 0⟩, ⟨3, 8, D3D12_RESOURCE_BARRIER_ALL_SUBRESOURCES⟩,
        ⟨2, 9, 1⟩]) (by decide)).1 2 [7, 9] (by decide) 1 (by decide)⟩

/-! ### Invariants of the recorded barriers and of the table -/

/-- What one call adds to the recorded barriers, with the property of each added
barrier. -/
theorem transition_added_barriers (cnt : Nat → Nat) (c : CommandList)
    (r stateAfter sel : Nat) :
    ∃ added, (transition cnt c r stateAfter sel).cmdList = c.cmdList ++ added ∧
      ∀ b ∈ added, b.stateBefore ≠ b.stateAfter ∧ b.stateBefore ≠ UNKNOWN_STATE := by
  cases hv : c.valid with
  | false =>
    refine ⟨[], ?_, ?_⟩
    · rw [transition_invalid cnt c r stateAfter sel hv, List.append_nil]
    · intro b hb
      cases hb
  | true =>
    cases hf : find c.lastStates r with
    | none =>
      refine ⟨[], ?_, ?_⟩
      · rw [transition_first cnt c r stateAfter sel hv hf, List.append_nil]
      · intro b hb
        cases hb
    | some st =>
      refine ⟨seenBarriers r stateAfter sel st st.length, ?_, ?_⟩
      · rw [transition_seen cnt c r stateAfter sel st hv hf]
      · intro b hb
        unfold seenBarriers at hb
        obtain ⟨i, hi, rfl⟩ := List.mem_map.mp hb
        have hp := (List.mem_filter.mp hi).2
        unfold immediateAt at hp
        simp only [Bool.and_eq_true, decide_eq_true_eq] at hp
        exact ⟨hp.1.2, hp.2⟩

/-- C14: every barrier that a `transition` call records (on any recorder, with any
arguments) has a before-state different from its after-state and different from
`UNKNOWN_STATE`; hence after every sequence of calls on a fresh recorder every recorded
barrier has these two properties, and an unknown prior state only ever leads to a pending
barrier. -/
theorem recorded_barrier_invariant (cnt : Nat → Nat) :
    (∀ (c : CommandList) (r stateAfter sel : Nat),
      ∃ added, (transition cnt c r stateAfter sel).cmdList = c.cmdList ++ added ∧
        ∀ b ∈ added, b.stateBefore ≠ b.stateAfter ∧ b.stateBefore ≠ UNKNOWN_STATE) ∧
    (∀ (calls : List Call), ∀ b ∈ (runCalls cnt fresh calls).cmdList,
      b.stateBefore ≠ b.stateAfter ∧ b.stateBefore ≠ UNKNOWN_STATE) := by
  refine ⟨transition_added_barriers cnt, ?_⟩
  have key : ∀ (calls : List Call) (c : CommandList),
      (∀ b ∈ c.cmdList, b.stateBefore ≠ b.stateAfter ∧ b.stateBefore ≠ UNKNOWN_STATE) →
      ∀ b ∈ (runCalls cnt c calls).cmdList,
        b.stateBefore ≠ b.stateAfter ∧ b.stateBefore ≠ UNKNOWN_STATE := by
    intro calls
    induction calls with
    | nil =>
      intro c h
      exact h
    | cons x xs ih =>
      intro c h
      rw [runCalls_cons]
      apply ih
      obtain ⟨added, e, hadd⟩ :=
        transition_added_barriers cnt c x.resource x.stateAfter x.subresourceIndex
      intro b hb
      unfold call at hb
      rw [e] at hb
      rcases List.mem_append.mp hb with h1 | h1
      · exact h b h1
      · exact hadd b h1
  intro calls
  apply key calls fresh
  intro b hb
  cases hb

theorem runCalls_invalid (cnt : Nat → Nat) (c : CommandList) (calls : List Call)
    (hv : c.valid = false) : runCalls cnt c calls = c := by
  induction calls with
  | nil => rfl
  | cons x xs ih =>
    rw [runCalls_cons]
    unfold call
    rw [transition_invalid cnt c _ _ _ hv]
    exact ih

/-- C15: the default constructed recorder is invalid; `init` on it, when the device fails
to create the command list, returns false and leaves it as constructed; and every
sequence of `transition` calls on it leaves it unchanged: the local table and the pending
list are empty, no barrier is recorded, and `resolveLastStates()` afterwards makes no call
of `setGlobalStateForSubres`, so that the registry is unchanged. -/
theorem invalid_recorder_noop (cnt : Nat → Nat) (calls : List Call) :
    isValid constructed = false ∧
    init constructed false = (constructed, false) ∧
    isValid (init constructed false).1 = false ∧
    runCalls cnt (init constructed false).1 calls = constructed ∧
    (runCalls cnt constructed calls).lastStates = [] ∧
    (runCalls cnt constructed calls).pendingBarriers = [] ∧
    (runCalls cnt constructed calls).cmdList = [] ∧
    resolveWrites (runCalls cnt constructed calls).lastStates = [] ∧
    ∀ reg : Registry, resolveLastStates reg (runCalls cnt constructed calls) = reg := by
  have e : runCalls cnt constructed calls = constructed := runCalls_invalid cnt _ calls rfl
  have e2 : init constructed false = (constructed, false) := rfl
  refine ⟨rfl, e2, rfl, ?_, ?_, ?_, ?_, ?_, ?_⟩
  · rw [e2]
    exact e
  · rw [e]
    rfl
  · rw [e]
    rfl
  · rw [e]
    rfl
  · rw [e]
    rfl
  · intro reg
    rw [e]
    rfl

/-- C17 as stated fails for two subresources and a single index: after
`transition(r, 3, 0)` on a fresh recorder the local vector of `r` is `[3, UNKNOWN_STATE]`,
and `resolveLastStates()` calls `setGlobalStateForSubres(r, UNKNOWN_STATE, 1)`: the
registry, which held state 7 for subresource 1, holds the sentinel afterwards. -/
theorem resolve_writes_unknown :
    resolveWrites (transition (fun _ => 2) fresh 5 3 0).lastStates
      = [(5, 3, 0), (5, UNKNOWN_STATE, 1)] ∧
    getState (fun _ _ => 7) 5 1 = 7 ∧
    getState (resolveLastStates (fun _ _ => 7) (transition (fun _ => 2) fresh 5 3 0)) 5 1
      = UNKNOWN_STATE := by
  decide

/-- What one call appends to the pending list. -/
theorem transition_added_pending (cnt : Nat → Nat) (c : CommandList)
    (r stateAfter sel : Nat) :
    ∃ added, (transition cnt c r stateAfter sel).pendingBarriers
      = c.pendingBarriers ++ added := by
  cases hv : c.valid with
  | false =>
    exact ⟨[], by rw [transition_invalid cnt c r stateAfter sel hv, List.append_nil]⟩
  | true =>
    cases hf : find c.lastStates r with
    | none => exact ⟨_, by rw [transition_first cnt c r stateAfter sel hv hf]⟩
    | some st => exact ⟨_, by rw [transition_seen cnt c r stateAfter sel st hv hf]⟩

theorem call_pending_eq (cnt : Nat → Nat) (c : CommandList) (x : Call) :
    (call cnt c x).pendingBarriers = c.pendingBarriers ++ deferredBy cnt c x := by
  obtain ⟨added, e⟩ :=
    transition_added_pending cnt c x.resource x.stateAfter x.subresourceIndex
  unfold deferredBy call
  rw [e, List.drop_left]

theorem runCalls_pending_eq (cnt : Nat → Nat) (c : CommandList) (calls : List Call) :
    (runCalls cnt c calls).pendingBarriers
      = c.pendingBarriers ++ deferredByAll cnt c calls := by
  induction calls generalizing c with
  | nil => simp [runCalls, deferredByAll]
  | cons x xs ih =>
    rw [runCalls_cons, ih, call_pending_eq]
    simp only [deferredByAll, List.append_assoc]

/-- C18: a `transition` call only appends to the pending list (the list before the call
is a prefix of the list after it, the rest being what the call deferred); after any
sequence of calls `getPendingResourceBarriers()` returns the list from before the
sequence followed by the pending barriers each call deferred, concatenated in call order
(on a fresh recorder: exactly that concatenation); and `getPendingResourceBarriers()`
leaves the recorder as it was. -/
theorem pending_list_append_only (cnt : Nat → Nat) :
    (∀ (c : CommandList) (x : Call),
      c.pendingBarriers <+: (call cnt c x).pendingBarriers ∧
      (call cnt c x).pendingBarriers = c.pendingBarriers ++ deferredBy cnt c x) ∧
    (∀ (c : CommandList) (calls : List Call),
      (getPendingResourceBarriers (runCalls cnt c calls)).1
        = c.pendingBarriers ++ deferredByAll cnt c calls) ∧
    (∀ (calls : List Call),
      (getPendingResourceBarriers (runCalls cnt fresh calls)).1
        = deferredByAll cnt fresh calls) ∧
    (∀ c : CommandList, (getPendingResourceBarriers c).2 = c ∧
      (getPendingResourceBarriers c).1 = c.pendingBarriers) := by
  refine ⟨?_, ?_, ?_, ?_⟩
  · intro c x
    exact ⟨⟨deferredBy cnt c x, (call_pending_eq cnt c x).symm⟩, call_pending_eq cnt c x⟩
  · intro c calls
    exact runCalls_pending_eq cnt c calls
  · intro calls
    show (runCalls cnt fresh calls).pendingBarriers = _
    rw [runCalls_pending_eq]
    rfl
  · intro c
    exact ⟨rfl, rfl⟩

/-- C19, wildcard over subresources in different states: a resource with two
subresources whose local states are `[4, 3]`; the wildcard transition to state 6 records,
while the loop is at subresource 0, the barrier `{r, ALL_SUBRESOURCES, before 4, after 6}`
although subresource 1 is in state 3 at that moment, and then
`{r, ALL_SUBRESOURCES, before 3, after 6}` although subresource 0 is in state 6 by
then. -/
theorem wildcard_barrier_before_state_mismatch :
    find (runCalls (fun _ => 2) fresh
      [⟨5, 3, D3D12_RESOURCE_BARRIER_ALL_SUBRESOURCES⟩, ⟨5, 4, 0⟩]).lastStates 5
      = some [4, 3] ∧
    seenBody 5 6 D3D12_RESOURCE_BARRIER_ALL_SUBRESOURCES ⟨[4, 3], [], []⟩ 0
      = ⟨[6, 3], [], [⟨5, 4, 6, D3D12_RESOURCE_BARRIER_ALL_SUBRESOURCES⟩]⟩ ∧
    soundFor ⟨5, 4, 6, D3D12_RESOURCE_BARRIER_ALL_SUBRESOURCES⟩ [4, 3] = false ∧
    seenBody 5 6 D3D12_RESOURCE_BARRIER_ALL_SUBRESOURCES ⟨[6, 3], [], []⟩ 1
      = ⟨[6, 6], [], [⟨5, 3, 6, D3D12_RESOURCE_BARRIER_ALL_SUBRESOURCES⟩]⟩ ∧
    soundFor ⟨5, 3, 6, D3D12_RESOURCE_BARRIER_ALL_SUBRESOURCES⟩ [6, 3] = false ∧
    (runCalls (fun _ => 2) fresh
      [⟨5, 3, D3D12_RESOURCE_BARRIER_ALL_SUBRESOURCES⟩, ⟨5, 4, 0⟩,
       ⟨5, 6, D3D12_RESOURCE_BARRIER_ALL_SUBRESOURCES⟩]).cmdList
      = [⟨5, 3, 4, 0⟩, ⟨5, 4, 6, D3D12_RESOURCE_BARRIER_ALL_SUBRESOURCES⟩,
         ⟨5, 3, 6, D3D12_RESOURCE_BARRIER_ALL_SUBRESOURCES⟩] := by
  decide

/-- One call keeps the length of every entry of the local table. -/
theorem transition_keeps_length (cnt : Nat → Nat) (c : CommandList) (r : Nat)
    (st : SubresStates) (hf : find c.lastStates r = some st) (r1 stateAfter sel : Nat) :
    ∃ st1, find (transition cnt c r1 stateAfter sel).lastStates r = some st1 ∧
      st1.length = st.length := by
  cases hv : c.valid with
  | false =>
    rw [transition_invalid cnt c r1 stateAfter sel hv]
    exact ⟨st, hf, rfl⟩
  | true =>
    by_cases hr : r = r1
    · subst hr
      rw [transition_seen cnt c r stateAfter sel st hv hf]
      exact ⟨_, find_assign_self _ _ _, length_seenStates _ _ _⟩
    · cases hf1 : find c.lastStates r1 with
      | none =>
        rw [transition_first cnt c r1 stateAfter sel hv hf1]
        exact ⟨st, by rw [← hf]; exact find_assign_ne _ _ _ _ hr, rfl⟩
      | some st2 =>
        rw [transition_seen cnt c r1 stateAfter sel st2 hv hf1]
        exact ⟨st, by rw [← hf]; exact find_assign_ne _ _ _ _ hr, rfl⟩

theorem runCalls_keeps_length (cnt : Nat → Nat) (c : CommandList) (r : Nat)
    (st : SubresStates) (hf : find c.lastStates r = some st) (calls : List Call) :
    ∃ st1, find (runCalls cnt c calls).lastStates r = some st1 ∧
      st1.length = st.length := by
  induction calls generalizing c st with
  | nil => exact ⟨st, hf, rfl⟩
  | cons x xs ih =>
    obtain ⟨st1, h1, h2⟩ :=
      transition_keeps_length cnt c r st hf x.resource x.stateAfter x.subresourceIndex
    obtain ⟨st2, h3, h4⟩ := ih (call cnt c x) st1 h1
    exact ⟨st2, h3, by rw [h4, h2]⟩

/-- C20: once the local table has an entry for a resource `r`, no sequence of later
`transition` calls (on `r` or on other resources, with any selector, in range or not)
changes the length of that entry; and from the call that first observes `r` on, the
length is the subresource count reported for `r` at that call. -/
theorem state_vector_length_fixed (cnt : Nat → Nat) (c : CommandList) (r : Nat) :
    (∀ st, find c.lastStates r = some st → ∀ calls : List Call,
      ∃ st1, find (runCalls cnt c calls).lastStates r = some st1 ∧
        st1.length = st.length) ∧
    (c.valid = true → find c.lastStates r = none →
      ∀ (stateAfter sel : Nat) (calls : List Call),
      ∃ st1, find (runCalls cnt (transition cnt c r stateAfter sel) calls).lastStates r
          = some st1 ∧ st1.length = cnt r) := by
  refine ⟨fun st hf calls => runCalls_keeps_length cnt c r st hf calls, ?_⟩
  intro hv hf stateAfter sel calls
  have h1 : find (transition cnt c r stateAfter sel).lastStates r
      = some (firstStates (cnt r) stateAfter sel) := by
    rw [transition_first cnt c r stateAfter sel hv hf]
    exact find_assign_self _ _ _
  obtain ⟨st1, h2, h3⟩ := runCalls_keeps_length cnt _ r _ h1 calls
  exact ⟨st1, h2, by rw [h3, length_firstStates]⟩

theorem state_vector_length_fixed_witness :
    find (transition (fun _ => 2) fresh 5 3 0).lastStates 5 = some [3, UNKNOWN_STATE] ∧
    ∃ st1, find (runCalls (fun _ => 2) (transition (fun _ => 2) fresh 5 3 0)
        [⟨5, 4, 9⟩, ⟨6, 4, 0⟩, ⟨5, 7, D3D12_RESOURCE_BARRIER_ALL_SUBRESOURCES⟩]).lastStates 5
        = some st1 ∧ st1.length = [3, UNKNOWN_STATE].length :=
  ⟨by decide,
    (state_vector_length_fixed (fun _ => 2) (transition (fun _ => 2) fresh 5 3 0) 5).1
      [3, UNKNOWN_STATE] (by decide)
      [⟨5, 4, 9⟩, ⟨6, 4, 0⟩, ⟨5, 7, D3D12_RESOURCE_BARRIER_ALL_SUBRESOURCES⟩]⟩

/-! ### Frame of `transition` -/

theorem transition_other_resource (cnt : Nat → Nat) (c : CommandList)
    (r stateAfter sel r1 : Nat) (hr : r1 ≠ r) :
    find (transition cnt c r stateAfter sel).lastStates r1 = find c.lastStates r1 := by
  cases hv : c.valid with
  | false => rw [transition_invalid cnt c r stateAfter sel hv]
  | true =>
    cases hf : find c.lastStates r with
    | none =>
      rw [transition_first cnt c r stateAfter sel hv hf]
      exact find_assign_ne _ _ _ _ hr
    | some st =>
      rw [transition_seen cnt c r stateAfter sel st hv hf]
      exact find_assign_ne _ _ _ _ hr

theorem covers_single (sel i : Nat) (h1 : sel ≠ D3D12_RESOURCE_BARRIER_ALL_SUBRESOURCES)
    (h2 : sel ≠ i) : ¬ covers sel i = true := by
  intro h
  unfold covers at h
  rcases of_decide_eq_true h with h | h
  · exact h1 h
  · exact h2 h

/-- C21 as stated fails on a first observation: on a fresh valid recorder, for a resource
with two subresources, `transition(r, 3, 7)` with the out-of-range single index 7 gives
the local table the entry `[UNKNOWN_STATE, UNKNOWN_STATE]` for `r` and appends two pending
barriers. -/
theorem out_of_range_first_observation :
    fresh.valid = true ∧ find fresh.lastStates 5 = none ∧
    (7 : Nat) ≠ D3D12_RESOURCE_BARRIER_ALL_SUBRESOURCES ∧ (fun _ => 2) 5 ≤ 7 ∧
    (transition (fun _ => 2) fresh 5 3 7).lastStates
      = [(5, [UNKNOWN_STATE, UNKNOWN_STATE])] ∧
    (transition (fun _ => 2) fresh 5 3 7).lastStates ≠ fresh.lastStates ∧
    (transition (fun _ => 2) fresh 5 3 7).pendingBarriers = [⟨5, 3, 7⟩, ⟨5, 3, 7⟩] ∧
    (transition (fun _ => 2) fresh 5 3 7).cmdList = [] := by
  decide

/-- C21, amended: on a valid recorder, `transition(r, stateAfter, selector)` leaves the
state vector of every resource other than `r` as it was; when `r` has a state vector
already, the new vector has the same length and the same entry at every index the
selector does not match, and with a single-index selector that is out of range for `r`
the recorder is left unchanged altogether (no local state changes, no barrier is recorded,
nothing is appended); on a first observation of `r` with such a selector no barrier is
recorded and the state vector created for `r` holds `UNKNOWN_STATE` at every index. -/
theorem transition_frame (cnt : Nat → Nat) (c : CommandList) (r stateAfter sel : Nat)
    (hv : c.valid = true) :
    (∀ r1, r1 ≠ r →
      find (transition cnt c r stateAfter sel).lastStates r1 = find c.lastStates r1) ∧
    (∀ st, find c.lastStates r = some st →
      ∃ v, find (transition cnt c r stateAfter sel).lastStates r = some v ∧
        v.length = st.length ∧
        ∀ i, sel ≠ D3D12_RESOURCE_BARRIER_ALL_SUBRESOURCES → sel ≠ i → v[i]? = st[i]?) ∧
    (∀ st, find c.lastStates r = some st →
      sel ≠ D3D12_RESOURCE_BARRIER_ALL_SUBRESOURCES → st.length ≤ sel →
      transition cnt c r stateAfter sel = c) ∧
    (find c.lastStates r = none →
      sel ≠ D3D12_RESOURCE_BARRIER_ALL_SUBRESOURCES → cnt r ≤ sel →
      (transition cnt c r stateAfter sel).cmdList = c.cmdList ∧
      ∃ v, find (transition cnt c r stateAfter sel).lastStates r = some v ∧
        v.length = cnt r ∧ ∀ i, i < cnt r → v[i]? = some UNKNOWN_STATE) := by
  refine ⟨?_, ?_, ?_, ?_⟩
  · intro r1 hr
    exact transition_other_resource cnt c r stateAfter sel r1 hr
  · intro st hf
    rw [transition_seen cnt c r stateAfter sel st hv hf]
    refine ⟨_, find_assign_self _ _ _, length_seenStates _ _ _, ?_⟩
    intro i h1 h2
    rw [getElem?_seenStates, if_neg (fun h => covers_single sel i h1 h2 h.2)]
  · intro st hf h1 h2
    apply transition_noop cnt c r stateAfter sel st hv hf
    intro i hi hc
    exact absurd hc (covers_single sel i h1 (by omega))
  · intro hf h1 h2
    rw [transition_first cnt c r stateAfter sel hv hf]
    refine ⟨rfl, _, find_assign_self _ _ _, length_firstStates _ _ _, ?_⟩
    intro i hi
    rw [getElem?_firstStates, if_pos hi]
    have hnc : ¬ covers sel i = true := covers_single sel i h1 (by omega)
    simp [hnc]

theorem transition_frame_witness :
    (transition (fun _ => 2) fresh 5 3 D3D12_RESOURCE_BARRIER_ALL_SUBRESOURCES).valid = true ∧
    find (transition (fun _ => 2) fresh 5 3
      D3D12_RESOURCE_BARRIER_ALL_SUBRESOURCES).lastStates 5 = some [3, 3] ∧
    (7 : Nat) ≠ D3D12_RESOURCE_BARRIER_ALL_SUBRESOURCES ∧ ([3, 3] : SubresStates).length ≤ 7 ∧
    transition (fun _ => 2)
      (transition (fun _ => 2) fresh 5 3 D3D12_RESOURCE_BARRIER_ALL_SUBRESOURCES) 5 4 7
      = transition (fun _ => 2) fresh 5 3 D3D12_RESOURCE_BARRIER_ALL_SUBRESOURCES :=
  ⟨by decide, by decide, by decide, by decide,
    (transition_frame (fun _ => 2)
      (transition (fun _ => 2) fresh 5 3 D3D12_RESOURCE_BARRIER_ALL_SUBRESOURCES) 5 4 7
      (by decide)).2.2.1 [3, 3] (by decide) (by decide) (by decide)⟩

/-! ### What `resolveLastStates` publishes -/

theorem observed_append (xs : List Call) (x : Call) (r : Nat) :
    observed (xs ++ [x]) r = (observed xs r || decide (x.resource = r)) := by
  simp [observed, List.any_append]

theorem touched_append (xs : List Call) (x : Call) (r i : Nat) :
    touched (xs ++ [x]) r i
      = (touched xs r i || (decide (x.resource = r) && covers x.subresourceIndex i)) := by
  simp [touched, List.any_append]

theorem observed_of_touched (calls : List Call) (r i : Nat)
    (h : touched calls r i = true) : observed calls r = true := by
  unfold touched at h
  unfold observed
  rw [List.any_eq_true] at h ⊢
  obtain ⟨x, hx, hp⟩ := h
  rw [Bool.and_eq_true] at hp
  exact ⟨x, hx, hp.1⟩

/-- The local table after a sequence of calls on a fresh recorder, none of which requests
the sentinel as a state: a resource has an entry exactly when some call named it, the
entry has one state per subresource, and its state at `i` is `UNKNOWN_STATE` exactly when
no call on the resource matched `i`. -/
theorem local_states_after (cnt : Nat → Nat) (calls : List Call)
    (hS : ∀ x ∈ calls, x.stateAfter ≠ UNKNOWN_STATE) (r : Nat) :
    (observed calls r = false → find (runCalls cnt fresh calls).lastStates r = none) ∧
    (observed calls r = true →
      ∃ st, find (runCalls cnt fresh calls).lastStates r = some st ∧ st.length = cnt r ∧
        ∀ i, i < cnt r → (st[i]? = some UNKNOWN_STATE ↔ touched calls r i = false)) := by
  induction calls using List.reverseRecOn with
  | nil =>
    refine ⟨fun _ => rfl, fun h => ?_⟩
    cases h
  | append_singleton xs x ih =>
    have hS1 : ∀ y ∈ xs, y.stateAfter ≠ UNKNOWN_STATE :=
      fun y hy => hS y (List.mem_append_left _ hy)
    have hSx : x.stateAfter ≠ UNKNOWN_STATE :=
      hS x (List.mem_append_right _ (List.mem_singleton_self x))
    obtain ⟨ih1, ih2⟩ := ih hS1
    have hv : (runCalls cnt fresh xs).valid = true := by
      rw [valid_runCalls]
      rfl
    have e : runCalls cnt (runCalls cnt fresh xs) [x]
        = transition cnt (runCalls cnt fresh xs) x.resource x.stateAfter
            x.subresourceIndex := rfl
    rw [runCalls_append, e, observed_append]
    by_cases hr : x.resource = r
    · subst hr
      refine ⟨fun h => ?_, fun _ => ?_⟩
      · simp at h
      · cases ho : observed xs x.resource with
        | false =>
          have hf := ih1 ho
          rw [transition_first cnt _ _ _ _ hv hf]
          refine ⟨_, find_assign_self _ _ _, length_firstStates _ _ _, ?_⟩
          intro i hi
          have ht : touched xs x.resource i = false := by
            cases h : touched xs x.resource i with
            | false => rfl
            | true =>
              rw [observed_of_touched xs _ i h] at ho
              cases ho
          rw [getElem?_firstStates, if_pos hi, touched_append, ht]
          by_cases hc : covers x.subresourceIndex i = true
          · simp [hc, hSx]
          · simp [hc]
        | true =>
          obtain ⟨st, hf, hlen, hst⟩ := ih2 ho
          rw [transition_seen cnt _ _ _ _ st hv hf]
          refine ⟨_, find_assign_self _ _ _, by rw [length_seenStates, hlen], ?_⟩
          intro i hi
          rw [getElem?_seenStates, touched_append]
          by_cases hc : covers x.subresourceIndex i = true
          · rw [if_pos ⟨by omega, hc⟩]
            simp [hc, hSx]
          · rw [if_neg (fun h => hc h.2), hst i hi]
            simp [hc]
    · have hd : decide (x.resource = r) = false := by simp [hr]
      rw [transition_other_resource cnt _ _ _ _ r (fun h => hr h.symm), hd, Bool.or_false]
      refine ⟨ih1, fun h => ?_⟩
      obtain ⟨st, hf, hlen, hst⟩ := ih2 h
      refine ⟨st, hf, hlen, fun i hi => ?_⟩
      rw [hst i hi, touched_append, hd, Bool.false_and, Bool.or_false]

/-- The calls of `setGlobalStateForSubres` made by `resolveLastStates`: one for each entry
of the table and each index of its state vector. -/
theorem mem_resolveWrites (m : List (Nat × SubresStates)) (r s i : Nat) :
    (r, s, i) ∈ resolveWrites m ↔
      ∃ st, (r, st) ∈ m ∧ i < st.length ∧ st.getD i 0 = s := by
  induction m with
  | nil => simp [resolveWrites]
  | cons e m ih =>
    obtain ⟨k, v⟩ := e
    simp only [resolveWrites, List.mem_append, List.mem_map, List.mem_range, ih,
      List.mem_cons, Prod.mk.injEq]
    constructor
    · rintro (⟨j, hj, h1, h2, h3⟩ | ⟨st, h1, h2, h3⟩)
      · subst h3
        subst h1
        exact ⟨v, Or.inl ⟨rfl, rfl⟩, hj, h2⟩
      · exact ⟨st, Or.inr h1, h2, h3⟩
    · rintro ⟨st, (⟨h1, h2⟩ | h1), h3, h4⟩
      · subst h1
        subst h2
        exact Or.inl ⟨i, h3, rfl, h4, rfl⟩
      · exact Or.inr ⟨st, h1, h3, h4⟩

theorem find_eq_some_iff_mem (m : List (Nat × SubresStates))
    (hnd : (m.map Prod.fst).Nodup) (r : Nat) (st : SubresStates) :
    find m r = some st ↔ (r, st) ∈ m := by
  induction m with
  | nil => simp [find]
  | cons e m ih =>
    obtain ⟨k, v⟩ := e
    rw [List.map_cons, List.nodup_cons] at hnd
    by_cases hk : k = r
    · subst hk
      have hnot : (k, st) ∉ m := fun h => hnd.1 (List.mem_map.mpr ⟨(k, st), h, rfl⟩)
      simp only [find, if_true, List.mem_cons, Prod.mk.injEq, true_and, hnot, or_false,
        Option.some.injEq]
      exact eq_comm
    · have hk2 : ¬ r = k := fun e => hk e.symm
      simp only [find, hk, if_false, List.mem_cons, Prod.mk.injEq, hk2, false_and, false_or]
      exact ih hnd.2

/-- C17, amended: after every sequence of `transition` calls on a valid fresh recorder
(none requesting the sentinel as a state), `resolveLastStates()` calls
`setGlobalStateForSubres(r, s, i)` exactly for the resources `r` of the local table and
the indices `i` of their state vectors, with `s` the local state; it passes
`UNKNOWN_STATE` exactly for the subresources `i` (below the subresource count) of a
resource some call named that no call on that resource matched, and the registry holds the
sentinel for exactly those afterwards; the registry entries of a resource no call named,
and those at indices from the subresource count on, are unchanged. -/
theorem resolve_publishes_local_states (cnt : Nat → Nat) (calls : List Call)
    (hS : ∀ x ∈ calls, x.stateAfter ≠ UNKNOWN_STATE) :
    (∀ r s i, (r, s, i) ∈ resolveWrites (runCalls cnt fresh calls).lastStates ↔
      ∃ st, find (runCalls cnt fresh calls).lastStates r = some st ∧ st[i]? = some s) ∧
    (∀ r i, (r, UNKNOWN_STATE, i) ∈ resolveWrites (runCalls cnt fresh calls).lastStates ↔
      (observed calls r = true ∧ i < cnt r ∧ touched calls r i = false)) ∧
    (∀ (reg : Registry) (r i : Nat), observed calls r = true → i < cnt r →
      (getState (resolveLastStates reg (runCalls cnt fresh calls)) r i = UNKNOWN_STATE ↔
        touched calls r i = false)) ∧
    (∀ (reg : Registry) (r i : Nat), (observed calls r = false ∨ cnt r ≤ i) →
      getState (resolveLastStates reg (runCalls cnt fresh calls)) r i = getState reg r i) := by
  have hnd : ((runCalls cnt fresh calls).lastStates.map Prod.fst).Nodup :=
    nodup_keys_runCalls cnt fresh calls List.nodup_nil
  have hw : ∀ r s i, (r, s, i) ∈ resolveWrites (runCalls cnt fresh calls).lastStates ↔
      ∃ st, find (runCalls cnt fresh calls).lastStates r = some st ∧ st[i]? = some s := by
    intro r s i
    rw [mem_resolveWrites]
    constructor
    · rintro ⟨st, h1, h2, h3⟩
      refine ⟨st, (find_eq_some_iff_mem _ hnd r st).mpr h1, ?_⟩
      rw [getElem?_eq_some_getD st i h2, h3]
    · rintro ⟨st, h1, h2⟩
      have hi : i < st.length := by
        by_contra hc
        rw [List.getElem?_eq_none (by omega)] at h2
        cases h2
      refine ⟨st, (find_eq_some_iff_mem _ hnd r st).mp h1, hi, ?_⟩
      rw [getElem?_eq_some_getD st i hi] at h2
      exact Option.some.inj h2
  refine ⟨hw, ?_, ?_, ?_⟩
  · intro r i
    rw [hw]
    obtain ⟨l1, l2⟩ := local_states_after cnt calls hS r
    constructor
    · rintro ⟨st, h1, h2⟩
      cases ho : observed calls r with
      | false =>
        rw [l1 ho] at h1
        cases h1
      | true =>
        obtain ⟨st1, h3, h4, h5⟩ := l2 ho
        rw [h1] at h3
        cases h3
        have hi : i < cnt r := by
          by_contra hc
          rw [List.getElem?_eq_none (by omega)] at h2
          cases h2
        exact ⟨rfl, hi, (h5 i hi).mp h2⟩
    · rintro ⟨h1, h2, h3⟩
      obtain ⟨st, h4, -, h6⟩ := l2 h1
      exact ⟨st, h4, (h6 i h2).mpr h3⟩
  · intro reg r i ho hi
    obtain ⟨st, h1, h2, h3⟩ := (local_states_after cnt calls hS r).2 ho
    unfold getState resolveLastStates
    rw [resolve_closed _ _ hnd, h1]
    simp only [h2, hi, if_true]
    rw [← h3 i hi, getElem?_eq_some_getD st i (by omega)]
    exact ⟨fun h => by rw [h], fun h => Option.some.inj h⟩
  · intro reg r i h
    unfold getState resolveLastStates
    rw [resolve_closed _ _ hnd]
    cases ho : observed calls r with
    | false => rw [(local_states_after cnt calls hS r).1 ho]
    | true =>
      obtain ⟨st, h1, h2, -⟩ := (local_states_after cnt calls hS r).2 ho
      have hi : cnt r ≤ i := by
        rcases h with h | h
        · rw [ho] at h
          cases h
        · exact h
      rw [h1]
      simp only [h2, Nat.not_lt.mpr hi, if_false]

theorem resolve_publishes_local_states_witness :
    (∀ x ∈ ([⟨5, 3, 0⟩, ⟨6, 4, D3D12_RESOURCE_BARRIER_ALL_SUBRESOURCES⟩] : List Call),
      x.stateAfter ≠ UNKNOWN_STATE) ∧
    observed [⟨5, 3, 0⟩, ⟨6, 4, D3D12_RESOURCE_BARRIER_ALL_SUBRESOURCES⟩] 5 = true ∧
    touched [⟨5, 3, 0⟩, ⟨6, 4, D3D12_RESOURCE_BARRIER_ALL_SUBRESOURCES⟩] 5 1 = false ∧
    (5, UNKNOWN_STATE, 1) ∈ resolveWrites (runCalls (fun _ => 2) fresh
      [⟨5, 3, 0⟩, ⟨6, 4, D3D12_RESOURCE_BARRIER_ALL_SUBRESOURCES⟩]).lastStates ∧
    resolveWrites (runCalls (fun _ => 2) fresh
      [⟨5, 3, 0⟩, ⟨6, 4, D3D12_RESOURCE_BARRIER_ALL_SUBRESOURCES⟩]).lastStates
      = [(5, 3, 0), (5, UNKNOWN_STATE, 1), (6, 4, 0), (6, 4, 1)] :=
  ⟨by decide, by decide, by decide,
    ((resolve_publishes_local_states (fun _ => 2)
      [⟨5, 3, 0⟩, ⟨6, 4, D3D12_RESOURCE_BARRIER_ALL_SUBRESOURCES⟩] (by decide)).2.1 5 1).mpr
      ⟨by decide, by decide, by decide⟩,
    by decide⟩

end D3D12
